import Mathlib

/-!
# Verification of the skc two-bit nucleotide codec and k-mer matcher

This file gives a shallow embedding of the codec in `src/lib.rs` (scalar
lookup-table tiers, AVX2/SSE vectorized tiers, the public `encode`/`decode`
dispatchers) and of the k-mer index/matcher logic in `src/main.rs`, and proves
the stated properties of the specification against it.

Bytes are modelled as `Nat` (values < 256), 64-bit words as `Nat` (values
< 2^64; overflow is made explicit with `% 2^64` where the machine would
truncate), SIMD vectors as `List Nat` of byte values, and fallible or
undefined operations (out-of-bounds reads) return `Option`.  Uninitialized
memory returned by `alloc::alloc` is modelled by an explicit `junk` oracle
giving the pre-existing contents of each uninitialized slot.
-/

set_option maxRecDepth 4000

namespace Skc

/-- `BYTE_LUT` from `src/lib.rs`: a 128-entry table mapping ASCII nucleotide
bytes to their 2-bit codes (`a/A ↦ 0b00`, `c/C ↦ 0b01`, `t/T/u/U ↦ 0b10`,
`g/G ↦ 0b11`), all other entries 0. -/
def BYTE_LUT : List Nat :=
  ((((((((((List.replicate 128 0).set 97 0).set 116 2).set 117 2).set 99 1).set
    103 3).set 65 0).set 84 2).set 85 2).set 67 1).set 71 3

/-- `BITS_LUT` from `src/lib.rs`: the 4-entry table `{0b00 ↦ 'A', 0b10 ↦ 'T',
0b01 ↦ 'C', 0b11 ↦ 'G'}` (bytes 65, 67, 84, 71). -/
def BITS_LUT : List Nat :=
  ((((List.replicate 4 0).set 0 65).set 2 84).set 1 67).set 3 71

/-- The number of output words allocated by every encode tier in
`src/lib.rs`: `len / 32 + if len % 32 == 0 { 0 } else { 1 }`. -/
def numWords (len : Nat) : Nat :=
  len / 32 + if len % 32 = 0 then 0 else 1

/-- The loop body of `encode_lut` from `src/lib.rs`, processing positions
`i, i+1, …, i+n-1` of `nuc` into the accumulator `res`:
`res[i/32] |= (BYTE_LUT[nuc[i]] as u64) << ((i % 32) << 1)`.
The table read `BYTE_LUT.get_unchecked(nuc[i] as usize)` is out of bounds
(undefined behavior) for bytes ≥ 128; this is modelled by `none`. -/
def encodeInto (nuc : List Nat) : List Nat → Nat → Nat → Option (List Nat)
  | res, _, 0 => some res
  | res, i, n + 1 =>
    match nuc[i]? with
    | none => none
    | some b =>
      match BYTE_LUT[b]? with
      | none => none
      | some c =>
        encodeInto nuc (res.set (i / 32) (res.getD (i / 32) 0 ||| (c <<< ((i % 32) <<< 1))))
          (i + 1) n

/-- `encode_lut` from `src/lib.rs`: the scalar encode tier.  Allocates
`numWords` zeroed 64-bit words and ORs each base's 2-bit code into position
`2*(i % 32)` of word `i / 32`. -/
def encode_lut (nuc : List Nat) : Option (List Nat) :=
  encodeInto nuc (List.replicate (numWords nuc.length) 0) 0 nuc.length

/-- The loop body of `decode_lut` from `src/lib.rs`, producing output
positions `i, …, i+n-1`:
`res[i] = BITS_LUT[(bits[i >> 5] >> ((i & 31) << 1)) & 0b11]`. -/
def decodeFrom (bits : List Nat) : Nat → Nat → Option (List Nat)
  | _, 0 => some []
  | i, n + 1 =>
    match bits[i >>> 5]? with
    | none => none
    | some curr =>
      match BITS_LUT[(curr >>> ((i &&& 31) <<< 1)) &&& 3]? with
      | none => none
      | some byte => (decodeFrom bits (i + 1) n).map (byte :: ·)

/-- `decode_lut` from `src/lib.rs`: the scalar decode tier. -/
def decode_lut (bits : List Nat) (len : Nat) : Option (List Nat) :=
  decodeFrom bits 0 len

/-- `decode` from `src/lib.rs`: panics (modelled as `none`) when
`len > bits.len() * 32`, otherwise decodes.  The scalar tier stands for the
dispatched tier (tier equality is proved separately). -/
def decode (bits : List Nat) (len : Nat) : Option (List Nat) :=
  if len > bits.length * 32 then none else decode_lut bits len

/-- The ten alphabet bytes accepted by the codec:
`A a C c G g T t U u` in ASCII. -/
def ALPHABET : List Nat := [65, 97, 67, 99, 71, 103, 84, 116, 85, 117]

/-- The eight DNA alphabet bytes (no `U`): `A a C c G g T t` in ASCII. -/
def ACGT_CASES : List Nat := [65, 97, 67, 99, 71, 103, 84, 116]

/-- Specification-side view of one `BYTE_LUT` read (total function). -/
def lutVal (b : Nat) : Nat := BYTE_LUT.getD b 0

/-- Specification-side packed word of a chunk of at most 32 bytes: base `j`
of the chunk contributes its 2-bit code at bit position `2*j`. -/
def packAdd : List Nat → Nat
  | [] => 0
  | b :: rest => lutVal b + 4 * packAdd rest

/-- Specification-side closed form of the scalar encoder output: word `w`
packs the chunk `nuc[32*w .. 32*w+32]`. -/
def encWords (nuc : List Nat) : List Nat :=
  (List.range (numWords nuc.length)).map fun w => packAdd ((nuc.drop (32 * w)).take 32)

/-- Specification-side closed form of one scalar decoder output byte. -/
def decByte (bits : List Nat) (i : Nat) : Nat :=
  BITS_LUT.getD ((bits.getD (i / 32) 0 >>> (2 * (i % 32))) % 4) 0

/-- Uppercase normalization of an ASCII letter (specification §8 wording:
"all bases normalized to uppercase canonical letters"). -/
def toUpper (b : Nat) : Nat := if 97 ≤ b ∧ b ≤ 122 then b - 32 else b

/-- The canonical letter the codec round-trips an alphabet byte to:
uppercase, with `U`/`u` collapsing to `T`. -/
def canonBase (b : Nat) : Nat := BITS_LUT.getD (lutVal b) 0

/-- The 2-bit mapping exactly as the specification states it:
`A=00, C=01, T=U=10, G=11`, case-insensitive. -/
def specCode (b : Nat) : Nat :=
  if b = 65 ∨ b = 97 then 0
  else if b = 67 ∨ b = 99 then 1
  else if b = 84 ∨ b = 116 ∨ b = 85 ∨ b = 117 then 2
  else if b = 71 ∨ b = 103 then 3
  else 0

/-! ## SIMD vector model

A `__m128i` / `__m256i` value is a list of 16 / 32 byte values in memory
(little-endian) order.  64-bit lane arithmetic converts through the
little-endian byte encoding. -/

/-- Little-endian value of a byte list (base 256). -/
def leNat : List Nat → Nat
  | [] => 0
  | b :: rest => b + 256 * leNat rest

/-- The `n` little-endian bytes of a machine word. -/
def leBytes : Nat → Nat → List Nat
  | _, 0 => []
  | x, n + 1 => x % 256 :: leBytes (x / 256) n

/-- The sign (most significant) bit of a byte, as read per byte by
`movemask`. -/
def msb8 (b : Nat) : Nat := b / 128 % 2

/-- `_mm_movemask_epi8` / `_mm256_movemask_epi8`: bit `j` of the result is
the most significant bit of byte `j`. -/
def movemask : List Nat → Nat
  | [] => 0
  | b :: rest => msb8 b ||| (movemask rest <<< 1)

/-- Byte interleaving, as performed per half-lane by `unpacklo/hi_epi8`. -/
def interleave : List Nat → List Nat → List Nat
  | x :: xs, y :: ys => x :: y :: interleave xs ys
  | _, _ => []

/-- `_mm_slli_epi64`: shift each of the two 64-bit elements of a 16-byte
vector left by `c`, truncating at 64 bits. -/
def slli64x2 (c : Nat) (v : List Nat) : List Nat :=
  leBytes ((leNat (v.take 8) <<< c) % 2 ^ 64) 8 ++
    leBytes ((leNat ((v.drop 8).take 8) <<< c) % 2 ^ 64) 8

/-- `_mm256_slli_epi64`: per 128-bit lane. -/
def slli64x4 (c : Nat) (v : List Nat) : List Nat :=
  slli64x2 c (v.take 16) ++ slli64x2 c (v.drop 16)

/-- `_mm_unpacklo_epi8`: interleave the low 8 bytes of two 16-byte vectors. -/
def unpacklo8 (x y : List Nat) : List Nat := interleave (x.take 8) (y.take 8)

/-- `_mm_unpackhi_epi8`: interleave the high 8 bytes. -/
def unpackhi8 (x y : List Nat) : List Nat :=
  interleave ((x.drop 8).take 8) ((y.drop 8).take 8)

/-- `_mm256_unpacklo_epi8`: per 128-bit lane. -/
def unpacklo8x2 (x y : List Nat) : List Nat :=
  unpacklo8 (x.take 16) (y.take 16) ++ unpacklo8 (x.drop 16) (y.drop 16)

/-- `_mm256_unpackhi_epi8`: per 128-bit lane. -/
def unpackhi8x2 (x y : List Nat) : List Nat :=
  unpackhi8 (x.take 16) (y.take 16) ++ unpackhi8 (x.drop 16) (y.drop 16)

/-- `_mm256_permute4x64_epi64` with immediate `0b11011000`: the four 64-bit
elements are reordered to (0, 2, 1, 3). -/
def permute4x64_d8 (v : List Nat) : List Nat :=
  v.take 8 ++ (v.drop 16).take 8 ++ (v.drop 8).take 8 ++ v.drop 24

/-- One full 32-byte chunk of `encode_movemask_avx` from `src/lib.rs`:
permute, shift copies left by 6 and 5, interleave, extract sign bits, and
concatenate the two 32-bit masks into one 64-bit word. -/
def avxEncChunk (chunk : List Nat) : Nat :=
  let v := permute4x64_d8 chunk
  let lo := slli64x4 6 v
  let hi := slli64x4 5 v
  let a := unpackhi8x2 lo hi
  let b := unpacklo8x2 lo hi
  (movemask a <<< 32) ||| movemask b

/-- One full 16-byte chunk of `encode_movemask_sse` from `src/lib.rs` (one
u32 of output): `(movemask(unpackhi(lo,hi)) << 16) | movemask(unpacklo(lo,hi))`. -/
def sseEncChunk (chunk : List Nat) : Nat :=
  let lo := slli64x2 6 chunk
  let hi := slli64x2 5 chunk
  (movemask (unpackhi8 lo hi) <<< 16) ||| movemask (unpacklo8 lo hi)

/-- `encode_movemask_avx` from `src/lib.rs`: full 32-byte chunks through the
AVX2 pipeline; when `len % 32 > 0` the remaining tail goes through
`encode_lut` and its single word is stored in the last slot.  Every
allocated word is written. -/
def encode_movemask_avx (nuc : List Nat) : Option (List Nat) :=
  let end_idx := nuc.length / 32
  let main := (List.range end_idx).map fun i => avxEncChunk ((nuc.drop (32 * i)).take 32)
  if nuc.length % 32 > 0 then
    match encode_lut (nuc.drop (end_idx * 32)) with
    | none => none
    | some tail => some (main ++ [tail.getD 0 0])
  else
    some main

/-- One u32 slot of the `encode_movemask_sse` output buffer from
`src/lib.rs`: slot `s < len/16` receives chunk `s`; when `len % 16 > 0`
slot `len/16` receives the packed tail (`encode_lut` of the remaining
bytes, cast to u32); any other slot keeps the uninitialized contents
`junk s` left by `alloc::alloc`. -/
def sseSlot (junk : Nat → Nat) (nuc : List Nat) (s : Nat) : Option Nat :=
  if s < nuc.length / 16 then some (sseEncChunk ((nuc.drop (16 * s)).take 16))
  else if s = nuc.length / 16 ∧ nuc.length % 16 > 0 then
    match encode_lut (nuc.drop ((nuc.length / 16) * 16)) with
    | none => none
    | some tail => some (tail.getD 0 0)
  else some (junk s)

/-- Sequencing of per-index option values (the writes of an imperative
loop observed afterwards). -/
def optMap (f : Nat → Option Nat) : List Nat → Option (List Nat)
  | [] => some []
  | i :: rest =>
    match f i with
    | none => none
    | some a => (optMap f rest).map (a :: ·)

/-- `encode_movemask_sse` from `src/lib.rs`: the output `Vec<u64>`
reinterprets consecutive u32 slots little-endian, word `w` being slots
`2*w` and `2*w+1`. -/
def encode_movemask_sse (junk : Nat → Nat) (nuc : List Nat) : Option (List Nat) :=
  optMap
    (fun w =>
      match sseSlot junk nuc (2 * w), sseSlot junk nuc (2 * w + 1) with
      | some lo, some hi => some (lo + 2 ^ 32 * hi)
      | _, _ => none)
    (List.range (numWords nuc.length))

/-- The 2-bit value the movemask pipeline extracts from one input byte:
bit 1 of the ASCII value in the low position, bit 2 in the high position. -/
def rawCode (b : Nat) : Nat := b / 2 % 2 + 2 * (b / 4 % 2)

/-- Specification-side packed word built from `rawCode`. -/
def packRaw : List Nat → Nat
  | [] => 0
  | b :: rest => rawCode b + 4 * packRaw rest

/-- Specification-side value of u32 slot `s` of the SSE encoder output. -/
def sseSlotVal (junk : Nat → Nat) (nuc : List Nat) (s : Nat) : Nat :=
  if s < nuc.length / 16 then packRaw ((nuc.drop (16 * s)).take 16)
  else if s = nuc.length / 16 ∧ nuc.length % 16 > 0 then
    packAdd (nuc.drop ((nuc.length / 16) * 16))
  else junk s

/-- `_mm_shuffle_epi8`: per-byte table lookup; an index byte with its sign
bit set yields 0, otherwise its low 4 bits select a byte of `a`. -/
def shuffle_epi8 (a m : List Nat) : List Nat :=
  m.map fun idx => if 128 ≤ idx then 0 else a.getD (idx % 16) 0

/-- `_mm256_shuffle_epi8`: per 128-bit lane. -/
def shuffle_epi8x2 (a m : List Nat) : List Nat :=
  shuffle_epi8 (a.take 16) (m.take 16) ++ shuffle_epi8 (a.drop 16) (m.drop 16)

/-- `_mm_srli_epi16` / `_mm256_srli_epi16`: shift each 16-bit element right. -/
def srli16 (c : Nat) (v : List Nat) : List Nat :=
  ((List.range (v.length / 2)).map fun e =>
    leBytes ((v.getD (2 * e) 0 + 256 * v.getD (2 * e + 1) 0) >>> c) 2).flatten

/-- `_mm_blend_epi16` / `_mm256_blend_epi16`: per 16-bit element, select
from `v2` when the corresponding immediate bit (per lane) is set. -/
def blend16 (imm : Nat) (v1 v2 : List Nat) : List Nat :=
  ((List.range (v1.length / 2)).map fun e =>
    if (imm >>> (e % 8)) % 2 = 1 then [v2.getD (2 * e) 0, v2.getD (2 * e + 1) 0]
    else [v1.getD (2 * e) 0, v1.getD (2 * e + 1) 0]).flatten

/-- Bytewise `and` (`_mm_and_si128` / `_mm256_and_si256`). -/
def andv (x y : List Nat) : List Nat := List.zipWith (· &&& ·) x y

/-- `_mm(256)_set_epi32`, arguments in source order (highest element
first), laid out little-endian in memory. -/
def setEpi32 (es : List Nat) : List Nat :=
  (es.reverse.map fun e => leBytes e 4).flatten

/-- `_mm(256)_set1_epi16` over `n` 16-bit elements. -/
def set1_epi16v (n x : Nat) : List Nat :=
  ((List.range n).map fun _ => leBytes x 2).flatten

/-- `_mm256_set1_epi64x`. -/
def set1_epi64x4 (w : Nat) : List Nat :=
  leBytes w 8 ++ leBytes w 8 ++ leBytes w 8 ++ leBytes w 8

/-- `_mm_set1_epi32`. -/
def set1_epi32x4 (x : Nat) : List Nat :=
  leBytes x 4 ++ leBytes x 4 ++ leBytes x 4 ++ leBytes x 4

/-- The constant `lut_i32` from `src/lib.rs`:
`A | C << 8 | T << 16 | G << 24`. -/
def lut_i32 : Nat := 65 ||| (67 <<< 8) ||| (84 <<< 16) ||| (71 <<< 24)

/-- The byte-duplication mask of `decode_shuffle_avx`. -/
def avxShuffleMask : List Nat :=
  setEpi32 [0x07070707, 0x06060606, 0x05050505, 0x04040404,
    0x03030303, 0x02020202, 0x01010101, 0x00000000]

/-- The nibble mask `set1_epi16(0b0000110000000011)` (AVX width). -/
def avxLoMask : List Nat := set1_epi16v 16 0b0000110000000011

/-- The nucleotide byte table of `decode_shuffle_avx`. -/
def avxLut : List Nat := setEpi32 [71, 84, 67, lut_i32, 71, 84, 67, lut_i32]

/-- The byte-duplication mask of `decode_shuffle_sse`. -/
def sseShuffleMask : List Nat :=
  setEpi32 [0x03030303, 0x02020202, 0x01010101, 0x00000000]

/-- The nibble mask (SSE width). -/
def sseLoMask : List Nat := set1_epi16v 8 0b0000110000000011

/-- The nucleotide byte table of `decode_shuffle_sse`. -/
def sseLut : List Nat := setEpi32 [71, 84, 67, lut_i32]

/-- One 32-byte output block of `decode_shuffle_avx` from `src/lib.rs`:
broadcast the word, duplicate each byte four times, shift alternate 16-bit
lanes right by 4, mask to one 2-bit field per byte, and look the fields up
in the nucleotide table. -/
def avxDecBlock (w : Nat) : List Nat :=
  let v := set1_epi64x4 w
  let v1 := shuffle_epi8x2 v avxShuffleMask
  let v2 := srli16 4 v1
  let vb := blend16 0b10101010 v1 v2
  let vm := andv vb avxLoMask
  shuffle_epi8x2 avxLut vm

/-- `decode_shuffle_avx`: one 32-byte block per word, truncated to `len`
by `Vec::from_raw_parts(ptr, len, cap)`. -/
def decode_shuffle_avx (bits : List Nat) (len : Nat) : List Nat :=
  ((bits.map avxDecBlock).flatten).take len

/-- One 16-byte output block of `decode_shuffle_sse` from `src/lib.rs`,
for one 32-bit half-word. -/
def sseDecBlock (x : Nat) : List Nat :=
  let v := set1_epi32x4 x
  let v1 := shuffle_epi8 v sseShuffleMask
  let v2 := srli16 4 v1
  let vb := blend16 0b10101010 v1 v2
  let vm := andv vb sseLoMask
  shuffle_epi8 sseLut vm

/-- The `*const i32` view of the word buffer taken by `decode_shuffle_sse`:
each u64 word contributes its low then its high 32-bit half. -/
def halves (bits : List Nat) : List Nat :=
  (bits.map fun w => [w % 2 ^ 32, w / 2 ^ 32 % 2 ^ 32]).flatten

/-- `decode_shuffle_sse`: one 16-byte block per 32-bit half, truncated to
`len`. -/
def decode_shuffle_sse (bits : List Nat) (len : Nat) : List Nat :=
  (((halves bits).map sseDecBlock).flatten).take len

/-- Modelled from the spec: `KmerInfo` records, per key, the ordered
sequence of `(source_name, offset)` positions at which the k-mer occurs;
the count is derived as `positions.length`.  (The `KmerInfo` type used by
`src/main.rs` is not among the library sources.) -/
structure KmerInfo where
  positions : List (String × Nat)

/-- Modelled from the spec: `add_pos` appends one `(source_name, offset)`
occurrence. -/
def KmerInfo.add_pos (info : KmerInfo) (chrom : String) (i : Nat) : KmerInfo :=
  ⟨info.positions ++ [(chrom, i)]⟩

/-- Modelled from the spec: `count()` is the number of recorded
positions. -/
def KmerInfo.count (info : KmerInfo) : Nat :=
  info.positions.length

/-- `encode(kmer)[0]` from `src/main.rs`: the first packed word of the
scalar encoding of a window; `none` on undefined behavior or an empty
window. -/
def hKey (kmer : List Nat) : Option Nat :=
  (encode_lut kmer).bind fun ws => ws[0]?

/-- `map.entry(h).or_default().add_pos(chrom, i)` from `src/main.rs`, on an
association-list view of the `HashMap`: update the entry for `h` in place,
or append a fresh default entry. -/
def entryAdd (m : List (Nat × KmerInfo)) (h : Nat) (chrom : String) (i : Nat) :
    List (Nat × KmerInfo) :=
  match m with
  | [] => [(h, KmerInfo.add_pos ⟨[]⟩ chrom i)]
  | (h1, info) :: rest =>
    if h1 = h then (h1, KmerInfo.add_pos info chrom i) :: rest
    else (h1, info) :: entryAdd rest h chrom i

/-- The target-index loop of `src/main.rs` for one record: for every `i`
with `seq.get(i..i + k)` in range (`i + k ≤ seq.len()`), add position `i`
under key `encode(kmer)[0]`; out-of-range windows are skipped. -/
def buildTarget (chrom : String) (seq : List Nat) (k : Nat) :
    Option (List (Nat × KmerInfo)) :=
  (List.range seq.length).foldl
    (fun acc i => acc.bind fun m =>
      if i + k ≤ seq.length then
        (hKey ((seq.drop i).take k)).map fun h => entryAdd m h chrom i
      else some m)
    (some [])

/-- The query-index loop of `src/main.rs` for one record: as for the
target, but a position is recorded only when the key already occurs in the
target index (`target_kmers.contains_key(&h)`). -/
def buildQuery (tgt : List (Nat × KmerInfo)) (chrom : String) (seq : List Nat)
    (k : Nat) : Option (List (Nat × KmerInfo)) :=
  (List.range seq.length).foldl
    (fun acc i => acc.bind fun m =>
      if i + k ≤ seq.length then
        (hKey ((seq.drop i).take k)).map fun h =>
          if (tgt.lookup h).isSome then entryAdd m h chrom i else m
      else some m)
    (some [])

/-- The output loop of `src/main.rs`: every entry of the query index is
paired with the target entry of the same key
(`target_kmers.get(&h).unwrap()`). -/
def matcher (tgt qry : List (Nat × KmerInfo)) :
    List (Nat × KmerInfo × KmerInfo) :=
  qry.filterMap fun p => (tgt.lookup p.1).map fun ti => (p.1, ti, p.2)

theorem BYTE_LUT_length : BYTE_LUT.length = 128 := by decide

theorem BITS_LUT_length : BITS_LUT.length = 4 := by decide

theorem lutVal_lt_four (b : Nat) : lutVal b < 4 := by
  by_cases h : b < 128
  · have hb : ∀ c < 128, lutVal c < 4 := by decide
    exact hb b h
  · have : BYTE_LUT.length ≤ b := by rw [BYTE_LUT_length]; omega
    simp [lutVal, List.getD_eq_getElem?_getD, List.getElem?_eq_none this]

theorem BYTE_LUT_read {b : Nat} (h : b < 128) : BYTE_LUT[b]? = some (lutVal b) := by
  have hb : b < BYTE_LUT.length := by rw [BYTE_LUT_length]; exact h
  rw [List.getElem?_eq_getElem hb]
  simp [lutVal, List.getD_eq_getElem?_getD, List.getElem?_eq_getElem hb]

theorem packAdd_lt (l : List Nat) : packAdd l < 4 ^ l.length := by
  induction l with
  | nil => simp [packAdd]
  | cons b t ih =>
    have := lutVal_lt_four b
    simp only [packAdd, List.length_cons, pow_succ]
    omega

theorem packAdd_snoc (l : List Nat) (b : Nat) :
    packAdd (l ++ [b]) = packAdd l + 4 ^ l.length * lutVal b := by
  induction l with
  | nil => simp [packAdd]
  | cons x t ih =>
    show lutVal x + 4 * packAdd (t ++ [b]) =
      lutVal x + 4 * packAdd t + 4 ^ (t.length + 1) * lutVal b
    rw [ih, pow_succ]
    ring

/-- Extraction: bit pair `2*j` of a packed chunk is the code of byte `j`. -/
theorem packAdd_extract (l : List Nat) (j : Nat) (hj : j < l.length) :
    (packAdd l >>> (2 * j)) % 4 = lutVal (l.getD j 0) := by
  induction l generalizing j with
  | nil => simp at hj
  | cons b t ih =>
    cases j with
    | zero =>
      have := lutVal_lt_four b
      simp only [packAdd, Nat.shiftRight_eq_div_pow, List.getD_cons_zero]
      omega
    | succ j =>
      have hj' : j < t.length := by simpa using hj
      have hb := lutVal_lt_four b
      have h1 : (packAdd (b :: t)) >>> (2 * (j + 1)) = packAdd t >>> (2 * j) := by
        simp only [packAdd, Nat.shiftRight_eq_div_pow]
        have h2 : 2 * (j + 1) = 2 + 2 * j := by ring
        rw [h2, pow_add, ← Nat.div_div_eq_div_mul]
        congr 1
        have : (lutVal b + 4 * packAdd t) / 2 ^ 2 = packAdd t := by omega
        simpa using this
      rw [h1, ih j hj', List.getD_cons_succ]

theorem or_shift_eq_add {a k : Nat} (h : a < 2 ^ k) (b : Nat) :
    a ||| (b <<< k) = a + 2 ^ k * b := by
  rw [Nat.shiftLeft_eq, Nat.or_comm, mul_comm b (2 ^ k), ← Nat.mul_add_lt_is_or h b]
  exact Nat.add_comm _ _

theorem four_pow_shift (r : Nat) : (4 : Nat) ^ r = 2 ^ (r <<< 1) := by
  rw [Nat.shiftLeft_eq, pow_one, show (4 : Nat) = 2 ^ 2 from rfl, ← pow_mul]
  ring

/-- `encodeInto` only reads the input positions it processes. -/
theorem encodeInto_congr (nuc nuc' res : List Nat) (i n : Nat)
    (h : ∀ j, i ≤ j → j < i + n → nuc[j]? = nuc'[j]?) :
    encodeInto nuc res i n = encodeInto nuc' res i n := by
  induction n generalizing res i with
  | zero => rfl
  | succ n ih =>
    have hi : nuc'[i]? = nuc[i]? := (h i (Nat.le_refl i) (by omega)).symm
    rcases hnb : nuc[i]? with _ | b
    · simp [encodeInto, hi, hnb]
    · rcases hlb : BYTE_LUT[b]? with _ | c
      · simp [encodeInto, hi, hnb, hlb]
      · simp only [encodeInto, hi, hnb, hlb]
        exact ih _ (i + 1) fun j h1 h2 => h j (by omega) (by omega)

/-- A trailing zero word that the processed positions never touch rides along. -/
theorem encodeInto_append_zero (nuc res : List Nat) (i n : Nat)
    (h : ∀ j, i ≤ j → j < i + n → j / 32 < res.length) :
    encodeInto nuc (res ++ [0]) i n = (encodeInto nuc res i n).map (· ++ [0]) := by
  induction n generalizing res i with
  | zero => rfl
  | succ n ih =>
    rcases hnb : nuc[i]? with _ | b
    · simp [encodeInto, hnb]
    · rcases hlb : BYTE_LUT[b]? with _ | c
      · simp [encodeInto, hnb, hlb]
      · simp only [encodeInto, hnb, hlb]
        have hlt : i / 32 < res.length := h i (Nat.le_refl i) (by omega)
        have hget : (res ++ [0]).getD (i / 32) 0 = res.getD (i / 32) 0 := by
          simp [List.getD_eq_getElem?_getD, List.getElem?_append_left hlt]
        have hset : (res ++ [0]).set (i / 32) (res.getD (i / 32) 0 ||| (c <<< ((i % 32) <<< 1)))
            = res.set (i / 32) (res.getD (i / 32) 0 ||| (c <<< ((i % 32) <<< 1))) ++ [0] :=
          List.set_append_left _ _ hlt
        rw [hget, hset, ih _ (i + 1) fun j h1 h2 => by
          simpa using h j (by omega) (by omega)]

/-- One-step unfolding of the `encodeInto` loop. -/
theorem encodeInto_succ (nuc res : List Nat) (i n : Nat) :
    encodeInto nuc res i (n + 1) =
      match nuc[i]? with
      | none => none
      | some b =>
        match BYTE_LUT[b]? with
        | none => none
        | some c =>
          encodeInto nuc (res.set (i / 32) (res.getD (i / 32) 0 ||| (c <<< ((i % 32) <<< 1))))
            (i + 1) n := rfl

/-- Splitting off the last loop iteration. -/
theorem encodeInto_split (nuc : List Nat) (res : List Nat) (i n : Nat) :
    encodeInto nuc res i (n + 1) =
      (encodeInto nuc res i n).bind fun r => encodeInto nuc r (i + n) 1 := by
  induction n generalizing res i with
  | zero => simp [encodeInto]
  | succ n ih =>
    rw [encodeInto_succ nuc res i (n + 1)]
    conv_rhs => rw [encodeInto_succ nuc res i n]
    rcases hnb : nuc[i]? with _ | b
    · simp [hnb]
    · rcases hlb : BYTE_LUT[b]? with _ | c
      · simp [hnb, hlb]
      · simp only [hnb, hlb]
        rw [ih]
        have : i + 1 + n = i + (n + 1) := by omega
        rw [this]

theorem numWords_succ_of_mod (len : Nat) (h : len % 32 = 0) :
    numWords (len + 1) = numWords len + 1 := by
  have h1 : (len + 1) / 32 = len / 32 := by omega
  have h2 : (len + 1) % 32 = 1 := by omega
  simp [numWords, h, h1, h2]

theorem numWords_succ_of_mod_ne (len : Nat) (h : len % 32 ≠ 0) :
    numWords (len + 1) = numWords len := by
  rcases Nat.lt_or_ge (len % 32) 31 with h31 | h31
  · have h1 : (len + 1) / 32 = len / 32 := by omega
    have h2 : (len + 1) % 32 = len % 32 + 1 := by omega
    simp only [numWords, h1, h2]
    rw [if_neg h, if_neg (by omega)]
  · have h31' : len % 32 = 31 := by omega
    have h1 : (len + 1) / 32 = len / 32 + 1 := by omega
    have h2 : (len + 1) % 32 = 0 := by omega
    simp only [numWords, h1, h2]
    simp [h]

theorem numWords_pos_last (len : Nat) : numWords (len + 1) = len / 32 + 1 := by
  by_cases h : len % 32 = 0
  · rw [numWords_succ_of_mod len h]
    simp [numWords, h]
  · rw [numWords_succ_of_mod_ne len h]
    simp only [numWords, if_neg h]

theorem encWords_length (nuc : List Nat) : (encWords nuc).length = numWords nuc.length := by
  simp [encWords]

/-- Closed form of the scalar encoder: on inputs whose bytes are all < 128
(in particular on alphabet inputs) it succeeds, and word `w` of the result
packs chunk `w` of the input. -/
theorem encode_lut_eq (nuc : List Nat) (h : ∀ b ∈ nuc, b < 128) :
    encode_lut nuc = some (encWords nuc) := by
  induction nuc using List.reverseRecOn with
  | nil => decide
  | append_singleton xs b ih =>
    have hxs : ∀ c ∈ xs, c < 128 := fun c hc => h c (by simp [hc])
    have hb : b < 128 := h b (by simp)
    set len := xs.length with hlen
    have hlen' : (xs ++ [b]).length = len + 1 := by simp [hlen]
    unfold encode_lut
    rw [hlen', encodeInto_split]
    have hcongr : encodeInto (xs ++ [b]) (List.replicate (numWords (len + 1)) 0) 0 len
        = encodeInto xs (List.replicate (numWords (len + 1)) 0) 0 len := by
      apply encodeInto_congr
      intro j _ hj2
      rw [List.getElem?_append_left (by omega)]
    rw [hcongr]
    have hres : encodeInto xs (List.replicate (numWords (len + 1)) 0) 0 len
        = some (encWords xs ++ if len % 32 = 0 then [0] else []) := by
      by_cases h0 : len % 32 = 0
      · rw [numWords_succ_of_mod len h0, List.replicate_succ']
        rw [encodeInto_append_zero]
        · have := ih hxs
          unfold encode_lut at this
          rw [← hlen] at this
          rw [this, if_pos h0]
          rfl
        · intro j hj1 hj2
          simp only [List.length_replicate]
          have : j / 32 ≤ (len - 1) / 32 := Nat.div_le_div_right (by omega)
          have hq : (len - 1) / 32 < len / 32 := by omega
          have : numWords len = len / 32 := by simp [numWords, h0]
          omega
      · rw [numWords_succ_of_mod_ne len h0]
        have := ih hxs
        unfold encode_lut at this
        rw [← hlen] at this
        rw [this, if_neg h0, List.append_nil]
    rw [hres]
    simp only [Option.some_bind, Nat.zero_add]
    rw [encodeInto_succ]
    have hread : (xs ++ [b])[len]? = some b := by
      rw [List.getElem?_append_right (by omega)]
      simp [hlen]
    simp only [hread, BYTE_LUT_read hb, encodeInto]
    congr 1
    -- it remains to show the list update equals encWords (xs ++ [b])
    set W := encWords xs ++ if len % 32 = 0 then [0] else [] with hW
    have hWlen : W.length = len / 32 + 1 := by
      rw [hW]
      by_cases h0 : len % 32 = 0
      · rw [if_pos h0, List.length_append, encWords_length, ← hlen]
        have hn : numWords len = len / 32 := by simp [numWords, h0]
        simp [hn]
      · rw [if_neg h0, List.append_nil, encWords_length, ← hlen]
        simp only [numWords, if_neg h0]
    have hgetEnc : ∀ (l : List Nat) (v : Nat), v < numWords l.length →
        (encWords l)[v]? = some (packAdd ((l.drop (32 * v)).take 32)) := by
      intro l v hvl
      simp [encWords, List.getElem?_range hvl]
    have hEncLen : (encWords (xs ++ [b])).length = len / 32 + 1 := by
      rw [encWords_length, hlen', numWords_pos_last]
    apply List.ext_getElem?
    intro w
    rcases Nat.lt_or_ge w (len / 32 + 1) with hwlt | hwge
    · have hwW : w < W.length := by omega
      have hRHS : (encWords (xs ++ [b]))[w]? = some (packAdd (((xs ++ [b]).drop (32 * w)).take 32)) :=
        hgetEnc (xs ++ [b]) w (by rw [hlen', numWords_pos_last]; omega)
      rcases Nat.lt_or_ge w (len / 32) with hcase | hcase
      · -- an earlier word, untouched by the final store
        have hfull : 32 * w + 32 ≤ len := by
          have h1 : 32 * (w + 1) ≤ 32 * (len / 32) := by omega
          have h2 := Nat.mul_div_le len 32
          omega
        have hchunk : ((xs ++ [b]).drop (32 * w)).take 32 = (xs.drop (32 * w)).take 32 := by
          rw [List.drop_append_of_le_length (by omega), List.take_append_of_le_length]
          rw [List.length_drop, ← hlen]
          omega
        have hwx : w < numWords xs.length := by
          rw [← hlen]
          unfold numWords
          split <;> omega
        have hwx2 : w < (encWords xs).length := by rw [encWords_length]; exact hwx
        rw [List.getElem?_set_ne (show len / 32 ≠ w by omega), hW,
          List.getElem?_append_left hwx2, hgetEnc xs w hwx, hRHS, hchunk]
      · -- the final word, w = len / 32
        have hweq : w = len / 32 := by omega
        subst hweq
        rw [List.getElem?_set_self hwW, hRHS]
        have hdl := Nat.mul_div_le len 32
        have hdrop : (xs ++ [b]).drop (32 * (len / 32)) = xs.drop (32 * (len / 32)) ++ [b] :=
          List.drop_append_of_le_length (by omega)
        have hdlen : (xs.drop (32 * (len / 32))).length = len % 32 := by
          rw [List.length_drop, ← hlen]
          omega
        have htake : (xs.drop (32 * (len / 32)) ++ [b]).take 32 = xs.drop (32 * (len / 32)) ++ [b] :=
          List.take_of_length_le (by rw [List.length_append, hdlen]; simp; omega)
        rw [hdrop, htake, packAdd_snoc, hdlen]
        have hWget : W.getD (len / 32) 0 = packAdd (xs.drop (32 * (len / 32))) := by
          rw [hW]
          by_cases h0 : len % 32 = 0
          · have hdnil : xs.drop (32 * (len / 32)) = [] := by
              apply List.eq_nil_of_length_eq_zero
              rw [hdlen]
              exact h0
            have hWl : (encWords xs).length = len / 32 := by
              rw [encWords_length, ← hlen]
              simp [numWords, h0]
            rw [if_pos h0, List.getD_eq_getElem?_getD, List.getElem?_append_right (by omega)]
            simp [hWl, hdnil, packAdd]
          · have hlt' : len / 32 < numWords xs.length := by
              rw [← hlen]
              simp only [numWords, if_neg h0]
              omega
            rw [if_neg h0, List.append_nil, List.getD_eq_getElem?_getD, hgetEnc xs (len / 32) hlt']
            simp only [Option.getD_some]
            rw [List.take_of_length_le (by rw [hdlen]; omega)]
        rw [hWget]
        have hbound : packAdd (xs.drop (32 * (len / 32))) < 2 ^ ((len % 32) <<< 1) := by
          have h1 := packAdd_lt (xs.drop (32 * (len / 32)))
          rw [hdlen, four_pow_shift] at h1
          exact h1
        rw [or_shift_eq_add hbound, ← four_pow_shift]
    · have h2 : (encWords (xs ++ [b])).length ≤ w := by rw [hEncLen]; omega
      rw [List.getElem?_eq_none (by rw [List.length_set, hWlen]; omega),
        List.getElem?_eq_none h2]

/-- One-step unfolding of the `decodeFrom` loop. -/
theorem decodeFrom_succ (bits : List Nat) (i n : Nat) :
    decodeFrom bits i (n + 1) =
      match bits[i >>> 5]? with
      | none => none
      | some curr =>
        match BITS_LUT[(curr >>> ((i &&& 31) <<< 1)) &&& 3]? with
        | none => none
        | some byte => (decodeFrom bits (i + 1) n).map (byte :: ·) := rfl

theorem and_three_eq_mod (x : Nat) : x &&& 3 = x % 4 := by
  have := Nat.and_pow_two_sub_one_eq_mod x 2
  simpa using this

theorem and_31_eq_mod (x : Nat) : x &&& 31 = x % 32 := by
  have := Nat.and_pow_two_sub_one_eq_mod x 5
  simpa using this

/-- Closed form of the decode loop: when the requested range stays within
capacity every read succeeds and byte `i+j` is `decByte bits (i+j)`. -/
theorem decodeFrom_eq (bits : List Nat) (n : Nat) :
    ∀ i, i + n ≤ 32 * bits.length →
    decodeFrom bits i n = some ((List.range n).map fun j => decByte bits (i + j)) := by
  induction n with
  | zero => intro i h; simp [decodeFrom]
  | succ n ih =>
    intro i h
    have hi : i / 32 < bits.length := by omega
    have hshift : i >>> 5 = i / 32 := by
      rw [Nat.shiftRight_eq_div_pow]
    have hsh1 : (i &&& 31) <<< 1 = 2 * (i % 32) := by
      rw [and_31_eq_mod, Nat.shiftLeft_eq, pow_one]
      ring
    rw [decodeFrom_succ]
    have hbg : bits[i >>> 5]? = some (bits.getD (i / 32) 0) := by
      rw [hshift]
      simp [List.getD_eq_getElem?_getD, List.getElem?_eq_getElem hi]
    have hidx : ((bits.getD (i / 32) 0 >>> (2 * (i % 32))) &&& 3) < 4 := by
      rw [and_three_eq_mod]
      omega
    have hlutg : BITS_LUT[(bits.getD (i / 32) 0 >>> ((i &&& 31) <<< 1)) &&& 3]?
        = some (decByte bits i) := by
      rw [hsh1, List.getElem?_eq_getElem (by rw [BITS_LUT_length]; exact hidx)]
      congr 1
      unfold decByte
      rw [← and_three_eq_mod]
      have hlen4 : (bits.getD (i / 32) 0 >>> (2 * (i % 32))) &&& 3 < BITS_LUT.length := by
        rw [BITS_LUT_length]
        exact hidx
      conv_rhs => rw [List.getD_eq_getElem?_getD, List.getElem?_eq_getElem hlen4]
      rfl
    simp only [hbg, hlutg]
    rw [ih (i + 1) (by omega)]
    simp only [Option.map_some']
    congr 1
    rw [List.range_succ_eq_map]
    simp only [List.map_cons, List.map_map, Nat.add_zero]
    congr 1
    apply List.map_congr_left
    intro j hj
    simp only [Function.comp_apply]
    congr 1
    omega

/-- Closed form of the scalar decoder. -/
theorem decode_lut_eq (bits : List Nat) (len : Nat) (h : len ≤ 32 * bits.length) :
    decode_lut bits len = some ((List.range len).map (decByte bits)) := by
  unfold decode_lut
  rw [decodeFrom_eq bits len 0 (by omega)]
  simp

/-- The scalar decoder always emits one of the four bytes of `BITS_LUT`. -/
theorem decByte_mem (bits : List Nat) (i : Nat) :
    decByte bits i ∈ [65, 67, 84, 71] := by
  unfold decByte
  have h4 : (bits.getD (i / 32) 0 >>> (2 * (i % 32))) % 4 < 4 := by omega
  interval_cases h : (bits.getD (i / 32) 0 >>> (2 * (i % 32))) % 4 <;> decide

theorem encWords_getD (nuc : List Nat) (w : Nat) (hw : w < numWords nuc.length) :
    (encWords nuc).getD w 0 = packAdd ((nuc.drop (32 * w)).take 32) := by
  simp [encWords, List.getD_eq_getElem?_getD, List.getElem?_range hw]

theorem div32_lt_numWords {i len : Nat} (h : i < len) : i / 32 < numWords len := by
  unfold numWords
  split <;> omega

theorem chunk_len (s : List Nat) (i : Nat) (hi : i < s.length) :
    i % 32 < ((s.drop (32 * (i / 32))).take 32).length := by
  simp only [List.length_take, List.length_drop]
  omega

theorem chunk_getD (s : List Nat) (i : Nat) (hi : i < s.length) :
    ((s.drop (32 * (i / 32))).take 32).getD (i % 32) 0 = s.getD i 0 := by
  rw [List.getD_eq_getElem?_getD, List.getD_eq_getElem?_getD,
    List.getElem?_take_of_lt (show i % 32 < 32 by omega), List.getElem?_drop]
  have h32 : 32 * (i / 32) + i % 32 = i := by omega
  rw [h32]

theorem getD_mem {l : List Nat} {i : Nat} (h : i < l.length) : l.getD i 0 ∈ l := by
  rw [List.getD_eq_getElem?_getD, List.getElem?_eq_getElem h]
  exact List.getElem_mem h

/-- Decoding the scalar encoder's word buffer recovers, at position `i`,
the canonical letter of input byte `i`. -/
theorem decByte_encWords (s : List Nat) (i : Nat) (hi : i < s.length) :
    decByte (encWords s) i = BITS_LUT.getD (lutVal (s.getD i 0)) 0 := by
  unfold decByte
  rw [encWords_getD s (i / 32) (div32_lt_numWords hi),
    packAdd_extract _ _ (chunk_len s i hi), chunk_getD s i hi]

theorem len_le_encWords_cap (len : Nat) : len ≤ 32 * numWords len := by
  unfold numWords
  split <;> omega

/-- C1.  Round-trip: for every sequence over `{A,T,C,G}` (any case) with
length at most 1000, decoding the scalar encoding at the original length
reproduces the sequence with all bases normalized to uppercase. -/
theorem C1_roundtrip (s : List Nat) (hs : ∀ b ∈ s, b ∈ ACGT_CASES)
    (hlen : s.length ≤ 1000) :
    ∃ w, encode_lut s = some w ∧ decode w s.length = some (s.map toUpper) := by
  have h128 : ∀ b ∈ s, b < 128 := by
    intro b hb
    exact (show ∀ b ∈ ACGT_CASES, b < 128 by decide) b (hs b hb)
  refine ⟨encWords s, encode_lut_eq s h128, ?_⟩
  have hcap : s.length ≤ 32 * (encWords s).length := by
    rw [encWords_length]
    exact len_le_encWords_cap s.length
  unfold decode
  rw [if_neg (by omega), decode_lut_eq _ _ (by omega)]
  congr 1
  apply List.ext_getElem
  · simp
  intro i h1 h2
  simp only [List.getElem_map, List.getElem_range]
  have hi : i < s.length := by simpa using h2
  rw [decByte_encWords s i hi]
  have hmem : s.getD i 0 ∈ ACGT_CASES := hs _ (getD_mem hi)
  have hd : s[i] = s.getD i 0 := by
    rw [List.getD_eq_getElem?_getD, List.getElem?_eq_getElem hi]
    rfl
  rw [hd]
  exact (show ∀ b ∈ ACGT_CASES, BITS_LUT.getD (lutVal b) 0 = toUpper b by decide) _ hmem

/-- Witness for C1 at the concrete input "aCtG". -/
theorem C1_roundtrip_witness :
    ∃ w, encode_lut [97, 67, 116, 71] = some w ∧
      decode w 4 = some ([97, 67, 116, 71].map toUpper) :=
  C1_roundtrip [97, 67, 116, 71] (by decide) (by decide)

/-- C4.  The scalar encoder stores the 2-bit code of base `i` (mapping
`A=00, C=01, T=U=10, G=11`, case-insensitive) at bit position `2*(i mod 32)`
of word `i div 32`, and produces exactly `ceil(length/32)` words. -/
theorem C4_scalar_layout (nuc : List Nat) (h : ∀ b ∈ nuc, b ∈ ALPHABET) :
    ∃ w, encode_lut nuc = some w ∧ w.length = (nuc.length + 31) / 32 ∧
      ∀ i, i < nuc.length →
        (w.getD (i / 32) 0 >>> (2 * (i % 32))) % 4 = specCode (nuc.getD i 0) := by
  have h128 : ∀ b ∈ nuc, b < 128 := by
    intro b hb
    exact (show ∀ b ∈ ALPHABET, b < 128 by decide) b (h b hb)
  refine ⟨encWords nuc, encode_lut_eq nuc h128, ?_, ?_⟩
  · rw [encWords_length]
    unfold numWords
    split <;> omega
  · intro i hi
    rw [encWords_getD _ _ (div32_lt_numWords hi),
      packAdd_extract _ _ (chunk_len nuc i hi), chunk_getD nuc i hi]
    exact (show ∀ b ∈ ALPHABET, lutVal b = specCode b by decide) _ (h _ (getD_mem hi))

/-- Witness for C4 at the concrete input "acgTU". -/
theorem C4_scalar_layout_witness :
    ∃ w, encode_lut [97, 99, 103, 84, 85] = some w ∧
      w.length = (5 + 31) / 32 ∧
      ∀ i, i < ([97, 99, 103, 84, 85] : List Nat).length →
        (w.getD (i / 32) 0 >>> (2 * (i % 32))) % 4 = specCode ([97, 99, 103, 84, 85].getD i 0) :=
  C4_scalar_layout [97, 99, 103, 84, 85] (by decide)

/-- C6.  `decode` faults exactly when `len > bits.len() * 32`, and otherwise
returns a byte sequence of exactly `len` bytes. -/
theorem C6_decode_fault (bits : List Nat) (len : Nat) :
    (decode bits len = none ↔ len > bits.length * 32) ∧
    (len ≤ bits.length * 32 → ∃ out, decode bits len = some out ∧ out.length = len) := by
  constructor
  · constructor
    · intro h
      by_contra hc
      push_neg at hc
      unfold decode at h
      rw [if_neg (by omega), decode_lut_eq bits len (by omega)] at h
      exact Option.noConfusion h
    · intro h
      unfold decode
      rw [if_pos h]
  · intro h
    refine ⟨(List.range len).map (decByte bits), ?_, by simp⟩
    unfold decode
    rw [if_neg (by omega)]
    exact decode_lut_eq bits len (by omega)

/-- Witness for C6: over-capacity faults, in-capacity returns. -/
theorem C6_decode_fault_witness :
    decode [0] 40 = none ∧ (∃ out, decode [0] 2 = some out ∧ out.length = 2) :=
  ⟨(C6_decode_fault [0] 40).1.mpr (by decide), (C6_decode_fault [0] 2).2 (by decide)⟩

/-- C10.  On arbitrary word values within capacity, the scalar decoder never
faults and returns exactly `len` bytes, each one of `A C T G`. -/
theorem C10_decode_total (bits : List Nat) (len : Nat) (hbits : ∀ w ∈ bits, w < 2 ^ 64)
    (h : len ≤ 32 * bits.length) :
    ∃ out, decode_lut bits len = some out ∧ out.length = len ∧
      ∀ b ∈ out, b ∈ [65, 67, 84, 71] := by
  refine ⟨_, decode_lut_eq bits len h, by simp, ?_⟩
  intro b hb
  simp only [List.mem_map] at hb
  obtain ⟨i, hi, rfl⟩ := hb
  exact decByte_mem bits i

/-- Witness for C10 at a non-canonical word value. -/
theorem C10_decode_total_witness :
    ∃ out, decode_lut [18446744073709551615] 7 = some out ∧ out.length = 7 ∧
      ∀ b ∈ out, b ∈ [65, 67, 84, 71] :=
  C10_decode_total [18446744073709551615] 7 (by decide) (by decide)

/-- C8 counterexample: `u` (byte 117) is in the alphabet but decoding its
encoding returns `T` (byte 84), not the same byte. -/
theorem C8_counterexample :
    117 ∈ ALPHABET ∧ encode_lut [117] = some [2] ∧ decode [2] 1 = some [84] ∧
      (84 : Nat) ≠ 117 := by decide

/-- C8 (amended).  For every alphabet byte, decoding the encoding returns its
canonical uppercase letter (with `T/t/U/u` all returning `T`); this is the
same byte exactly for uppercase `A C G T`. -/
theorem C8_amended_roundtrip : ∀ b ∈ ALPHABET,
    ((encode_lut [b]).bind fun w => decode w 1) = some [canonBase b] := by decide

/-- Witness for the amended C8 at byte `u`. -/
theorem C8_amended_roundtrip_witness :
    ((encode_lut [117]).bind fun w => decode w 1) = some [canonBase 117] :=
  C8_amended_roundtrip 117 (by decide)

/-- C9 counterexample: byte 200 (non-ASCII, outside the alphabet) does not
encode to `0b00`: the unchecked `BYTE_LUT` read is out of bounds (undefined
behavior), modelled as `none`. -/
theorem C9_counterexample :
    (200 : Nat) ∉ ALPHABET ∧ encode_lut [200] = none ∧ encode_lut [200] ≠ some [0] := by
  decide

/-- C9 (amended).  Every byte below 128 outside the alphabet is silently
encoded as `0b00`, the same code as `A`; bytes ≥ 128 instead hit an
out-of-bounds table read. -/
theorem C9_amended_default (b : Nat) (h : b < 128) (hn : b ∉ ALPHABET) :
    encode_lut [b] = some [0] ∧ encode_lut [b] = encode_lut [65] := by
  revert hn
  revert h
  revert b
  decide

/-- Witness for the amended C9 at byte `N` (78). -/
theorem C9_amended_default_witness :
    encode_lut [78] = some [0] ∧ encode_lut [78] = encode_lut [65] :=
  C9_amended_default 78 (by decide) (by decide)

/-! ## Byte-level lemmas for the SIMD pipelines -/

theorem leBytes_length (x n : Nat) : (leBytes x n).length = n := by
  induction n generalizing x with
  | zero => rfl
  | succ n ih => simp [leBytes, ih]

theorem leBytes_getD (x n j : Nat) (hj : j < n) :
    (leBytes x n).getD j 0 = x / 256 ^ j % 256 := by
  induction n generalizing x j with
  | zero => omega
  | succ n ih =>
    cases j with
    | zero => simp [leBytes]
    | succ j =>
      show (leBytes (x / 256) n).getD j 0 = _
      rw [ih (x / 256) j (by omega), Nat.div_div_eq_div_mul, pow_succ]
      ring_nf

theorem leNat_bit (X : List Nat) (hX : ∀ b ∈ X, b < 256) (j m : Nat) (hm : m ≤ 7)
    (hj : j < X.length) :
    leNat X / 2 ^ (8 * j + m) % 2 = X.getD j 0 / 2 ^ m % 2 := by
  induction X generalizing j with
  | nil => simp at hj
  | cons b rest ih =>
    have hb : b < 256 := hX b (by simp)
    cases j with
    | zero =>
      show (b + 256 * leNat rest) / 2 ^ (8 * 0 + m) % 2 = b / 2 ^ m % 2
      have h8 : (256 : Nat) = 2 ^ m * 2 ^ (8 - m) := by
        rw [← pow_add, show m + (8 - m) = 8 by omega]
        norm_num
      rw [show 8 * 0 + m = m by ring, h8, mul_assoc,
        Nat.add_mul_div_left _ _ (Nat.two_pow_pos m)]
      have h2 : ∃ t, 2 ^ (8 - m) * leNat rest = 2 * t := by
        refine ⟨2 ^ (7 - m) * leNat rest, ?_⟩
        rw [← mul_assoc]
        congr 1
        rw [show 8 - m = (7 - m) + 1 by omega, pow_succ]
        ring
      obtain ⟨t, ht⟩ := h2
      rw [ht]
      omega
    | succ j =>
      have hstep : (b + 256 * leNat rest) / 2 ^ (8 * (j + 1) + m) =
          leNat rest / 2 ^ (8 * j + m) := by
        rw [show 8 * (j + 1) + m = 8 + (8 * j + m) by ring, pow_add,
          ← Nat.div_div_eq_div_mul]
        congr 1
        have h256 : (2 : Nat) ^ 8 = 256 := by norm_num
        rw [h256]
        omega
      show (b + 256 * leNat rest) / 2 ^ (8 * (j + 1) + m) % 2 = _
      rw [hstep, ih (fun c hc => hX c (by simp [hc])) j (by simpa using hj)]
      rfl

theorem msb8_lt_two (b : Nat) : msb8 b < 2 := by
  unfold msb8
  omega

theorem movemask_cons_add (b : Nat) (rest : List Nat) :
    movemask (b :: rest) = msb8 b + 2 * movemask rest := by
  show msb8 b ||| (movemask rest <<< 1) = _
  rw [or_shift_eq_add (show msb8 b < 2 ^ 1 by simpa using msb8_lt_two b)]
  norm_num

theorem movemask_bound (l : List Nat) : movemask l < 2 ^ l.length := by
  induction l with
  | nil => simp [movemask]
  | cons b rest ih =>
    rw [movemask_cons_add]
    have := msb8_lt_two b
    simp only [List.length_cons, pow_succ]
    omega

theorem movemask_append_add (u v : List Nat) :
    movemask (u ++ v) = movemask u + 2 ^ u.length * movemask v := by
  induction u with
  | nil => simp [movemask]
  | cons b rest ih =>
    rw [List.cons_append, movemask_cons_add, movemask_cons_add, ih, List.length_cons, pow_succ]
    ring

theorem movemask_eq_sum (l : List Nat) :
    movemask l = ∑ j ∈ Finset.range l.length, msb8 (l.getD j 0) * 2 ^ j := by
  induction l with
  | nil => simp [movemask]
  | cons b rest ih =>
    rw [movemask_cons_add, ih]
    simp only [List.length_cons]
    rw [Finset.sum_range_succ']
    simp only [List.getD_cons_succ, List.getD_cons_zero, pow_zero, mul_one]
    rw [Finset.mul_sum]
    rw [Finset.sum_congr rfl fun j hj =>
      show 2 * (msb8 (rest.getD j 0) * 2 ^ j) = msb8 (rest.getD j 0) * 2 ^ (j + 1) by ring]
    omega

theorem interleave_length (u v : List Nat) (h : u.length = v.length) :
    (interleave u v).length = 2 * u.length := by
  induction u generalizing v with
  | nil =>
    cases v with
    | nil => rfl
    | cons y ys => simp at h
  | cons x xs ih =>
    cases v with
    | nil => simp at h
    | cons y ys =>
      show (x :: y :: interleave xs ys).length = _
      simp only [List.length_cons]
      rw [ih ys (by simpa using h)]
      ring

theorem interleave_getD_even (u v : List Nat) (h : u.length = v.length) (j : Nat)
    (hj : j < u.length) :
    (interleave u v).getD (2 * j) 0 = u.getD j 0 := by
  induction u generalizing v j with
  | nil => simp at hj
  | cons x xs ih =>
    cases v with
    | nil => simp at h
    | cons y ys =>
      cases j with
      | zero => rfl
      | succ j =>
        show (x :: y :: interleave xs ys).getD (2 * (j + 1)) 0 = _
        rw [show 2 * (j + 1) = (2 * j) + 1 + 1 by ring]
        simp only [List.getD_cons_succ]
        exact ih ys (by simpa using h) j (by simpa using hj)

theorem interleave_getD_odd (u v : List Nat) (h : u.length = v.length) (j : Nat)
    (hj : j < u.length) :
    (interleave u v).getD (2 * j + 1) 0 = v.getD j 0 := by
  induction u generalizing v j with
  | nil => simp at hj
  | cons x xs ih =>
    cases v with
    | nil => simp at h
    | cons y ys =>
      cases j with
      | zero => rfl
      | succ j =>
        show (x :: y :: interleave xs ys).getD (2 * (j + 1) + 1) 0 = _
        rw [show 2 * (j + 1) + 1 = (2 * j + 1) + 1 + 1 by ring]
        simp only [List.getD_cons_succ]
        exact ih ys (by simpa using h) j (by simpa using hj)

theorem sum_range_even_odd (f : Nat → Nat) (n : Nat) :
    ∑ p ∈ Finset.range (2 * n), f p =
      ∑ j ∈ Finset.range n, (f (2 * j) + f (2 * j + 1)) := by
  induction n with
  | zero => simp
  | succ n ih =>
    rw [show 2 * (n + 1) = (2 * n + 1) + 1 by ring, Finset.sum_range_succ,
      Finset.sum_range_succ, ih, Finset.sum_range_succ]
    omega

theorem rawCode_lt_four (b : Nat) : rawCode b < 4 := by
  unfold rawCode
  omega

theorem packRaw_lt (l : List Nat) : packRaw l < 4 ^ l.length := by
  induction l with
  | nil => simp [packRaw]
  | cons b rest ih =>
    have := rawCode_lt_four b
    simp only [packRaw, List.length_cons, pow_succ]
    omega

theorem packRaw_append (u v : List Nat) :
    packRaw (u ++ v) = packRaw u + 4 ^ u.length * packRaw v := by
  induction u with
  | nil => simp [packRaw]
  | cons b rest ih =>
    show rawCode b + 4 * packRaw (rest ++ v) =
      rawCode b + 4 * packRaw rest + 4 ^ (rest.length + 1) * packRaw v
    rw [ih, pow_succ]
    ring

theorem packRaw_eq_sum (l : List Nat) :
    packRaw l = ∑ j ∈ Finset.range l.length, rawCode (l.getD j 0) * 4 ^ j := by
  induction l with
  | nil => simp [packRaw]
  | cons b rest ih =>
    show rawCode b + 4 * packRaw rest = _
    rw [ih]
    simp only [List.length_cons]
    rw [Finset.sum_range_succ']
    simp only [List.getD_cons_succ, List.getD_cons_zero, pow_zero, mul_one]
    rw [Finset.mul_sum]
    rw [Finset.sum_congr rfl fun j hj =>
      show 4 * (rawCode (rest.getD j 0) * 4 ^ j) = rawCode (rest.getD j 0) * 4 ^ (j + 1) by ring]
    omega

theorem packAdd_append (u v : List Nat) :
    packAdd (u ++ v) = packAdd u + 4 ^ u.length * packAdd v := by
  induction u with
  | nil => simp [packAdd]
  | cons b rest ih =>
    show lutVal b + 4 * packAdd (rest ++ v) =
      lutVal b + 4 * packAdd rest + 4 ^ (rest.length + 1) * packAdd v
    rw [ih, pow_succ]
    ring

theorem packRaw_eq_packAdd (l : List Nat) (h : ∀ b ∈ l, b ∈ ALPHABET) :
    packRaw l = packAdd l := by
  induction l with
  | nil => rfl
  | cons b rest ih =>
    show rawCode b + 4 * packRaw rest = lutVal b + 4 * packAdd rest
    rw [ih (fun c hc => h c (by simp [hc])),
      (show ∀ b ∈ ALPHABET, rawCode b = lutVal b by decide) b (h b (by simp))]

theorem take_add_split (l : List Nat) (m n : Nat) :
    l.take (m + n) = l.take m ++ (l.drop m).take n := by
  induction m generalizing l with
  | zero => simp
  | succ m ih =>
    cases l with
    | nil => simp
    | cons x xs =>
      rw [show m + 1 + n = (m + n) + 1 by omega]
      show x :: xs.take (m + n) = x :: (xs.take m ++ (xs.drop m).take n)
      rw [ih xs]

/-- Sign bit of byte `j` of a 64-bit element shifted left by `s ≤ 7`:
bit `7 - s` of source byte `j`. -/
theorem msb8_slli_byte (X : List Nat) (hX : ∀ b ∈ X, b < 256) (hlen : X.length = 8)
    (s j : Nat) (hs : s ≤ 7) (hj : j < 8) :
    msb8 ((leBytes ((leNat X <<< s) % 2 ^ 64) 8).getD j 0) =
      X.getD j 0 / 2 ^ (7 - s) % 2 := by
  rw [leBytes_getD _ _ _ hj]
  unfold msb8
  rw [Nat.shiftLeft_eq]
  have h256 : (256 : Nat) ^ j = 2 ^ (8 * j) := by
    rw [show (256 : Nat) = 2 ^ 8 from by norm_num, ← pow_mul]
  rw [h256]
  have hsplit : (2 : Nat) ^ 64 = 2 ^ (8 * j) * 2 ^ (64 - 8 * j) := by
    rw [← pow_add]
    congr 1
    omega
  rw [hsplit, Nat.mod_mul_right_div_self]
  have hdvd : (256 : Nat) ∣ 2 ^ (64 - 8 * j) := by
    rw [show (256 : Nat) = 2 ^ 8 from by norm_num]
    exact pow_dvd_pow 2 (by omega)
  rw [Nat.mod_mod_of_dvd _ hdvd]
  rw [show (256 : Nat) = 128 * 2 from by norm_num, Nat.mod_mul_right_div_self,
    Nat.mod_mod_of_dvd _ (dvd_refl 2), Nat.div_div_eq_div_mul,
    show (128 : Nat) = 2 ^ 7 from by norm_num, ← pow_add]
  have hfac : (2 : Nat) ^ (8 * j + 7) = 2 ^ s * 2 ^ (8 * j + 7 - s) := by
    rw [← pow_add]
    congr 1
    omega
  rw [hfac, mul_comm (leNat X) (2 ^ s), Nat.mul_div_mul_left _ _ (Nat.two_pow_pos s)]
  rw [show 8 * j + 7 - s = 8 * j + (7 - s) by omega]
  exact leNat_bit X hX j (7 - s) (by omega) (by rw [hlen]; exact hj)

/-- The movemask of the interleaving of the two shifted copies of one 64-bit
element recovers the 16-bit `rawCode` packing of its 8 source bytes. -/
theorem movemask_interleave_raw (X : List Nat) (hX : ∀ b ∈ X, b < 256)
    (hlen : X.length = 8) :
    movemask (interleave (leBytes ((leNat X <<< 6) % 2 ^ 64) 8)
      (leBytes ((leNat X <<< 5) % 2 ^ 64) 8)) = packRaw X := by
  have hl6 : (leBytes ((leNat X <<< 6) % 2 ^ 64) 8).length = 8 := leBytes_length _ _
  have hl5 : (leBytes ((leNat X <<< 5) % 2 ^ 64) 8).length = 8 := leBytes_length _ _
  rw [movemask_eq_sum, interleave_length _ _ (by rw [hl6, hl5]), hl6]
  rw [sum_range_even_odd]
  rw [packRaw_eq_sum, hlen]
  apply Finset.sum_congr rfl
  intro j hj
  have hj8 : j < 8 := by simpa using hj
  rw [interleave_getD_even _ _ (by rw [hl6, hl5]) j (by rw [hl6]; exact hj8),
    interleave_getD_odd _ _ (by rw [hl6, hl5]) j (by rw [hl6]; exact hj8),
    msb8_slli_byte X hX hlen 6 j (by omega) hj8,
    msb8_slli_byte X hX hlen 5 j (by omega) hj8]
  unfold rawCode
  have h1 : (7 : Nat) - 6 = 1 := rfl
  have h2 : (7 : Nat) - 5 = 2 := rfl
  rw [h1, h2, pow_one, show (2 : Nat) ^ 2 = 4 from rfl]
  have h4 : (4 : Nat) ^ j = 2 ^ (2 * j) := by
    rw [show (4 : Nat) = 2 ^ 2 from rfl, ← pow_mul]
  rw [h4, show 2 * j + 1 = 2 * j + 1 from rfl, pow_succ]
  ring

theorem slli64x2_append (s : Nat) (u v : List Nat) (hu : u.length = 8) (hv : v.length = 8) :
    slli64x2 s (u ++ v) =
      leBytes ((leNat u <<< s) % 2 ^ 64) 8 ++ leBytes ((leNat v <<< s) % 2 ^ 64) 8 := by
  unfold slli64x2
  rw [List.take_left' hu, List.drop_left' hu, List.take_of_length_le (le_of_eq hv)]

theorem unpackhi8_append (x1 x2 y1 y2 : List Nat) (h1 : x1.length = 8) (h2 : x2.length = 8)
    (h3 : y1.length = 8) (h4 : y2.length = 8) :
    unpackhi8 (x1 ++ x2) (y1 ++ y2) = interleave x2 y2 := by
  unfold unpackhi8
  rw [List.drop_left' h1, List.drop_left' h3, List.take_of_length_le (le_of_eq h2),
    List.take_of_length_le (le_of_eq h4)]

theorem unpacklo8_append (x1 x2 y1 y2 : List Nat) (h1 : x1.length = 8) (h3 : y1.length = 8) :
    unpacklo8 (x1 ++ x2) (y1 ++ y2) = interleave x1 y1 := by
  unfold unpacklo8
  rw [List.take_left' h1, List.take_left' h3]

theorem unpackhi8x2_append (p1 p2 q1 q2 : List Nat) (hp1 : p1.length = 16)
    (hq1 : q1.length = 16) :
    unpackhi8x2 (p1 ++ p2) (q1 ++ q2) = unpackhi8 p1 q1 ++ unpackhi8 p2 q2 := by
  unfold unpackhi8x2
  rw [List.take_left' hp1, List.drop_left' hp1, List.take_left' hq1, List.drop_left' hq1]

theorem unpacklo8x2_append (p1 p2 q1 q2 : List Nat) (hp1 : p1.length = 16)
    (hq1 : q1.length = 16) :
    unpacklo8x2 (p1 ++ p2) (q1 ++ q2) = unpacklo8 p1 q1 ++ unpacklo8 p2 q2 := by
  unfold unpacklo8x2
  rw [List.take_left' hp1, List.drop_left' hp1, List.take_left' hq1, List.drop_left' hq1]

/-- One full SSE chunk equals the `rawCode` packing of its 16 bytes. -/
theorem sseEncChunk_eq (c : List Nat) (hc : ∀ b ∈ c, b < 256) (hlen : c.length = 16) :
    sseEncChunk c = packRaw c := by
  have hA : (c.take 8).length = 8 := by rw [List.length_take]; omega
  have hBeq : (c.drop 8).take 8 = c.drop 8 :=
    List.take_of_length_le (by rw [List.length_drop]; omega)
  have hBlen : (c.drop 8).length = 8 := by rw [List.length_drop]; omega
  show (movemask (unpackhi8 (slli64x2 6 c) (slli64x2 5 c)) <<< 16) |||
      movemask (unpacklo8 (slli64x2 6 c) (slli64x2 5 c)) = packRaw c
  unfold slli64x2
  rw [hBeq]
  rw [unpackhi8_append _ _ _ _ (leBytes_length _ 8) (leBytes_length _ 8)
    (leBytes_length _ 8) (leBytes_length _ 8),
    unpacklo8_append _ _ _ _ (leBytes_length _ 8) (leBytes_length _ 8)]
  rw [movemask_interleave_raw (c.drop 8) (fun b hb => hc b (List.mem_of_mem_drop hb)) hBlen,
    movemask_interleave_raw (c.take 8) (fun b hb => hc b (List.mem_of_mem_take hb)) hA]
  have hbound : packRaw (c.take 8) < 2 ^ 16 := by
    have h := packRaw_lt (c.take 8)
    rw [hA] at h
    exact lt_of_lt_of_le h (by norm_num)
  rw [Nat.or_comm, or_shift_eq_add hbound]
  conv_rhs => rw [← List.take_append_drop 8 c]
  rw [packRaw_append, hA, show (4 : Nat) ^ 8 = 2 ^ 16 from by norm_num]

/-- One full AVX chunk equals the `rawCode` packing of its 32 bytes. -/
theorem avxEncChunk_eq (c : List Nat) (hc : ∀ b ∈ c, b < 256) (hlen : c.length = 32) :
    avxEncChunk c = packRaw c := by
  set A := c.take 8 with hA
  set B := (c.drop 8).take 8 with hB
  set C := (c.drop 16).take 8 with hC
  set D := c.drop 24 with hD
  have hAl : A.length = 8 := by rw [hA, List.length_take]; omega
  have hBl : B.length = 8 := by rw [hB, List.length_take, List.length_drop]; omega
  have hCl : C.length = 8 := by rw [hC, List.length_take, List.length_drop]; omega
  have hDl : D.length = 8 := by rw [hD, List.length_drop]; omega
  have hAb : ∀ b ∈ A, b < 256 := fun b hb => hc b (List.mem_of_mem_take hb)
  have hBb : ∀ b ∈ B, b < 256 := fun b hb =>
    hc b (List.mem_of_mem_drop (List.mem_of_mem_take hb))
  have hCb : ∀ b ∈ C, b < 256 := fun b hb =>
    hc b (List.mem_of_mem_drop (List.mem_of_mem_take hb))
  have hDb : ∀ b ∈ D, b < 256 := fun b hb => hc b (List.mem_of_mem_drop hb)
  have hperm : permute4x64_d8 c = (A ++ C) ++ (B ++ D) := by
    unfold permute4x64_d8
    rw [← hA, ← hB, ← hC, ← hD]
    simp [List.append_assoc]
  have hlane : ∀ s : Nat, slli64x4 s (permute4x64_d8 c) =
      (leBytes ((leNat A <<< s) % 2 ^ 64) 8 ++ leBytes ((leNat C <<< s) % 2 ^ 64) 8) ++
      (leBytes ((leNat B <<< s) % 2 ^ 64) 8 ++ leBytes ((leNat D <<< s) % 2 ^ 64) 8) := by
    intro s
    rw [hperm]
    unfold slli64x4
    rw [List.take_left' (by rw [List.length_append, hAl, hCl]),
      List.drop_left' (by rw [List.length_append, hAl, hCl]),
      slli64x2_append s A C hAl hCl, slli64x2_append s B D hBl hDl]
  show (movemask (unpackhi8x2 (slli64x4 6 (permute4x64_d8 c)) (slli64x4 5 (permute4x64_d8 c)))
      <<< 32) |||
    movemask (unpacklo8x2 (slli64x4 6 (permute4x64_d8 c)) (slli64x4 5 (permute4x64_d8 c)))
      = packRaw c
  rw [hlane 6, hlane 5]
  rw [unpackhi8x2_append _ _ _ _
      (by rw [List.length_append, leBytes_length, leBytes_length])
      (by rw [List.length_append, leBytes_length, leBytes_length]),
    unpacklo8x2_append _ _ _ _
      (by rw [List.length_append, leBytes_length, leBytes_length])
      (by rw [List.length_append, leBytes_length, leBytes_length])]
  rw [unpackhi8_append _ _ _ _ (leBytes_length _ 8) (leBytes_length _ 8)
      (leBytes_length _ 8) (leBytes_length _ 8),
    unpackhi8_append _ _ _ _ (leBytes_length _ 8) (leBytes_length _ 8)
      (leBytes_length _ 8) (leBytes_length _ 8),
    unpacklo8_append _ _ _ _ (leBytes_length _ 8) (leBytes_length _ 8),
    unpacklo8_append _ _ _ _ (leBytes_length _ 8) (leBytes_length _ 8)]
  rw [movemask_append_add, movemask_append_add,
    show (interleave (leBytes ((leNat C <<< 6) % 2 ^ 64) 8)
        (leBytes ((leNat C <<< 5) % 2 ^ 64) 8)).length = 16 from by
      rw [interleave_length _ _ (by rw [leBytes_length, leBytes_length]), leBytes_length],
    show (interleave (leBytes ((leNat A <<< 6) % 2 ^ 64) 8)
        (leBytes ((leNat A <<< 5) % 2 ^ 64) 8)).length = 16 from by
      rw [interleave_length _ _ (by rw [leBytes_length, leBytes_length]), leBytes_length],
    movemask_interleave_raw A hAb hAl, movemask_interleave_raw B hBb hBl,
    movemask_interleave_raw C hCb hCl, movemask_interleave_raw D hDb hDl]
  have hbound : packRaw A + 2 ^ 16 * packRaw B < 2 ^ 32 := by
    have h1 := packRaw_lt A
    have h2 := packRaw_lt B
    rw [hAl] at h1
    rw [hBl] at h2
    norm_num at h1 h2 ⊢
    omega
  rw [Nat.or_comm, or_shift_eq_add hbound]
  have hcsplit : c = (A ++ B) ++ (C ++ D) := by
    conv_lhs => rw [← List.take_append_drop 16 c]
    congr 1
    · rw [show (16 : Nat) = 8 + 8 from rfl, take_add_split, ← hA, ← hB]
    · conv_lhs => rw [← List.take_append_drop 8 (c.drop 16)]
      rw [← hC, List.drop_drop]
  conv_rhs => rw [hcsplit]
  rw [packRaw_append, packRaw_append, packRaw_append,
    List.length_append, hAl, hBl, hCl]
  norm_num

theorem alphabet_lt_128 : ∀ b ∈ ALPHABET, b < 128 := by decide

theorem encode_lut_short (t : List Nat) (h128 : ∀ b ∈ t, b < 128) (h1 : 1 ≤ t.length)
    (h2 : t.length ≤ 31) : encode_lut t = some [packAdd t] := by
  rw [encode_lut_eq t h128]
  congr 1
  unfold encWords
  have hn : numWords t.length = 1 := by
    unfold numWords
    split <;> omega
  rw [hn, show List.range 1 = [0] from rfl]
  simp only [List.map_cons, List.map_nil, List.drop_zero, Nat.mul_zero]
  rw [List.take_of_length_le (by omega)]

/-- A full 32-byte chunk of an alphabet input packs identically through the
AVX pipeline and the scalar table. -/
theorem avxEncChunk_eq_packAdd (nuc : List Nat) (h : ∀ b ∈ nuc, b ∈ ALPHABET)
    (i : Nat) (hi : 32 * i + 32 ≤ nuc.length) :
    avxEncChunk ((nuc.drop (32 * i)).take 32) = packAdd ((nuc.drop (32 * i)).take 32) := by
  have hcl : ((nuc.drop (32 * i)).take 32).length = 32 := by
    rw [List.length_take, List.length_drop]
    omega
  rw [avxEncChunk_eq _ (fun b hb => by
      have := alphabet_lt_128 b (h b (List.mem_of_mem_drop (List.mem_of_mem_take hb)))
      omega) hcl,
    packRaw_eq_packAdd _ (fun b hb =>
      h b (List.mem_of_mem_drop (List.mem_of_mem_take hb)))]

/-- The AVX encode tier agrees with the scalar tier on every alphabet input. -/
theorem encode_movemask_avx_eq (nuc : List Nat) (h : ∀ b ∈ nuc, b ∈ ALPHABET) :
    encode_movemask_avx nuc = encode_lut nuc := by
  have h128 : ∀ b ∈ nuc, b < 128 := fun b hb => alphabet_lt_128 b (h b hb)
  rw [encode_lut_eq nuc h128]
  unfold encode_movemask_avx
  by_cases h0 : nuc.length % 32 = 0
  · rw [if_neg (by omega)]
    congr 1
    unfold encWords
    have hn : numWords nuc.length = nuc.length / 32 := by
      unfold numWords
      split <;> omega
    rw [hn]
    apply List.map_congr_left
    intro i hi
    have hi32 : 32 * i + 32 ≤ nuc.length := by
      have hlt : i < nuc.length / 32 := by simpa using hi
      have := Nat.mul_div_le nuc.length 32
      omega
    exact avxEncChunk_eq_packAdd nuc h i hi32
  · rw [if_pos (by omega)]
    have htail : encode_lut (nuc.drop (nuc.length / 32 * 32))
        = some [packAdd (nuc.drop (nuc.length / 32 * 32))] := by
      apply encode_lut_short
      · exact fun b hb => h128 b (List.mem_of_mem_drop hb)
      · rw [List.length_drop]
        have := Nat.mul_div_le nuc.length 32
        omega
      · rw [List.length_drop]
        omega
    simp only [htail, List.getD_cons_zero]
    congr 1
    unfold encWords
    have hn : numWords nuc.length = nuc.length / 32 + 1 := by
      unfold numWords
      split <;> omega
    rw [hn, List.range_succ, List.map_append]
    congr 1
    · apply List.map_congr_left
      intro i hi
      have hi32 : 32 * i + 32 ≤ nuc.length := by
        have hlt : i < nuc.length / 32 := by simpa using hi
        have := Nat.mul_div_le nuc.length 32
        omega
      exact avxEncChunk_eq_packAdd nuc h i hi32
    · simp only [List.map_cons, List.map_nil]
      congr 1
      rw [List.take_of_length_le (by rw [List.length_drop]; omega), mul_comm]

theorem optMap_eq_map (f : Nat → Option Nat) (g : Nat → Nat) (l : List Nat)
    (h : ∀ i ∈ l, f i = some (g i)) : optMap f l = some (l.map g) := by
  induction l with
  | nil => rfl
  | cons x xs ih =>
    show (match f x with
      | none => none
      | some a => (optMap f xs).map (a :: ·)) = _
    rw [h x (by simp), ih fun i hi => h i (by simp [hi])]
    rfl

theorem sseSlot_eq (junk : Nat → Nat) (nuc : List Nat) (h128 : ∀ b ∈ nuc, b < 128)
    (s : Nat) : sseSlot junk nuc s = some (sseSlotVal junk nuc s) := by
  unfold sseSlot sseSlotVal
  by_cases h1 : s < nuc.length / 16
  · rw [if_pos h1, if_pos h1]
    congr 1
    apply sseEncChunk_eq
    · intro b hb
      have := h128 b (List.mem_of_mem_drop (List.mem_of_mem_take hb))
      omega
    · rw [List.length_take, List.length_drop]
      have h2 : 16 * (s + 1) ≤ 16 * (nuc.length / 16) := by omega
      have h3 := Nat.mul_div_le nuc.length 16
      omega
  · rw [if_neg h1, if_neg h1]
    by_cases h2 : s = nuc.length / 16 ∧ nuc.length % 16 > 0
    · rw [if_pos h2, if_pos h2]
      have htail : encode_lut (nuc.drop (nuc.length / 16 * 16))
          = some [packAdd (nuc.drop (nuc.length / 16 * 16))] := by
        apply encode_lut_short
        · exact fun b hb => h128 b (List.mem_of_mem_drop hb)
        · rw [List.length_drop]
          have := Nat.mul_div_le nuc.length 16
          omega
        · rw [List.length_drop]
          omega
      simp only [htail, List.getD_cons_zero]
    · rw [if_neg h2, if_neg h2]

/-- Closed form of the SSE encoder output words. -/
theorem encode_movemask_sse_words (junk : Nat → Nat) (nuc : List Nat)
    (h128 : ∀ b ∈ nuc, b < 128) :
    encode_movemask_sse junk nuc = some ((List.range (numWords nuc.length)).map
      fun w => sseSlotVal junk nuc (2 * w) + 2 ^ 32 * sseSlotVal junk nuc (2 * w + 1)) := by
  unfold encode_movemask_sse
  apply optMap_eq_map
  intro w hw
  rw [sseSlot_eq junk nuc h128 (2 * w), sseSlot_eq junk nuc h128 (2 * w + 1)]

/-- Word `wi` of the SSE output: always equal to the scalar word modulo
2^32, and exactly equal whenever at least 17 bases land in that word (in
particular for every full word). -/
theorem sse_word_agrees (junk : Nat → Nat) (nuc : List Nat)
    (halpha : ∀ b ∈ nuc, b ∈ ALPHABET) (wi : Nat) (hwi : wi < numWords nuc.length) :
    (sseSlotVal junk nuc (2 * wi) + 2 ^ 32 * sseSlotVal junk nuc (2 * wi + 1)) % 2 ^ 32
        = packAdd ((nuc.drop (32 * wi)).take 32) % 2 ^ 32
    ∧ (32 * wi + 17 ≤ nuc.length →
        sseSlotVal junk nuc (2 * wi) + 2 ^ 32 * sseSlotVal junk nuc (2 * wi + 1)
          = packAdd ((nuc.drop (32 * wi)).take 32)) := by
  have hlo : 32 * wi < nuc.length := by
    unfold numWords at hwi
    split at hwi <;> omega
  have hmemdt : ∀ (k m : Nat), ∀ b ∈ (nuc.drop k).take m, b ∈ ALPHABET := fun k m b hb =>
    halpha b (List.mem_of_mem_drop (List.mem_of_mem_take hb))
  have hmemd : ∀ (k : Nat), ∀ b ∈ nuc.drop k, b ∈ ALPHABET := fun k b hb =>
    halpha b (List.mem_of_mem_drop hb)
  by_cases hfull : 32 * wi + 32 ≤ nuc.length
  · -- two full 16-byte chunks
    have hc1 : 2 * wi < nuc.length / 16 := by omega
    have hc2 : 2 * wi + 1 < nuc.length / 16 := by omega
    have hs1 : sseSlotVal junk nuc (2 * wi)
        = packRaw ((nuc.drop (16 * (2 * wi))).take 16) := by
      unfold sseSlotVal
      rw [if_pos hc1]
    have hs2 : sseSlotVal junk nuc (2 * wi + 1)
        = packRaw ((nuc.drop (16 * (2 * wi + 1))).take 16) := by
      unfold sseSlotVal
      rw [if_pos hc2]
    have heq : sseSlotVal junk nuc (2 * wi) + 2 ^ 32 * sseSlotVal junk nuc (2 * wi + 1)
        = packAdd ((nuc.drop (32 * wi)).take 32) := by
      rw [hs1, hs2, show 16 * (2 * wi) = 32 * wi by ring,
        show 16 * (2 * wi + 1) = 32 * wi + 16 by ring,
        packRaw_eq_packAdd _ (hmemdt _ _), packRaw_eq_packAdd _ (hmemdt _ _)]
      conv_rhs => rw [show (32 : Nat) = 16 + 16 from rfl, take_add_split, packAdd_append]
      rw [List.drop_drop]
      have hl16 : ((nuc.drop (32 * wi)).take 16).length = 16 := by
        rw [List.length_take, List.length_drop]
        omega
      rw [hl16, show (4 : Nat) ^ 16 = 2 ^ 32 from by norm_num]
    exact ⟨by rw [heq], fun _ => heq⟩
  · rcases Nat.lt_or_ge (nuc.length) (32 * wi + 16) with hshort | hmid
    · -- 1 ≤ len - 32*wi ≤ 15: tail slot low, junk high
      have hc1 : ¬ 2 * wi < nuc.length / 16 := by omega
      have hcE : 2 * wi = nuc.length / 16 := by omega
      have hc2 : nuc.length % 16 > 0 := by omega
      have hs1 : sseSlotVal junk nuc (2 * wi) = packAdd (nuc.drop (nuc.length / 16 * 16)) := by
        unfold sseSlotVal
        rw [if_neg hc1, if_pos ⟨hcE, hc2⟩]
      have hs2 : sseSlotVal junk nuc (2 * wi + 1) = junk (2 * wi + 1) := by
        unfold sseSlotVal
        rw [if_neg (by omega), if_neg (by omega)]
      have hdropeq : nuc.length / 16 * 16 = 32 * wi := by omega
      have htk : (nuc.drop (32 * wi)).take 32 = nuc.drop (32 * wi) :=
        List.take_of_length_le (by rw [List.length_drop]; omega)
      constructor
      · rw [hs1, hs2, hdropeq, htk, Nat.add_mul_mod_self_left]
      · intro hge
        omega
    · rcases Nat.lt_or_ge (32 * wi + 16) nuc.length with htail17 | hle16
      · -- 17 ≤ len - 32*wi ≤ 31: chunk low, tail slot high, words agree exactly
        have hc1 : 2 * wi < nuc.length / 16 := by omega
        have hcE : 2 * wi + 1 = nuc.length / 16 := by omega
        have hc2 : nuc.length % 16 > 0 := by omega
        have hs1 : sseSlotVal junk nuc (2 * wi)
            = packRaw ((nuc.drop (16 * (2 * wi))).take 16) := by
          unfold sseSlotVal
          rw [if_pos hc1]
        have hs2 : sseSlotVal junk nuc (2 * wi + 1)
            = packAdd (nuc.drop (nuc.length / 16 * 16)) := by
          unfold sseSlotVal
          rw [if_neg (by omega), if_pos ⟨hcE, hc2⟩]
        have hdropeq : nuc.length / 16 * 16 = 32 * wi + 16 := by omega
        have heq : sseSlotVal junk nuc (2 * wi) + 2 ^ 32 * sseSlotVal junk nuc (2 * wi + 1)
            = packAdd ((nuc.drop (32 * wi)).take 32) := by
          rw [hs1, hs2, hdropeq, show 16 * (2 * wi) = 32 * wi by ring,
            packRaw_eq_packAdd _ (hmemdt _ _)]
          conv_rhs => rw [show (32 : Nat) = 16 + 16 from rfl, take_add_split, packAdd_append]
          rw [List.drop_drop]
          have hl16 : ((nuc.drop (32 * wi)).take 16).length = 16 := by
            rw [List.length_take, List.length_drop]
            omega
          have htk2 : (nuc.drop (32 * wi + 16)).take 16 = nuc.drop (32 * wi + 16) :=
            List.take_of_length_le (by rw [List.length_drop]; omega)
          rw [hl16, htk2, show (4 : Nat) ^ 16 = 2 ^ 32 from by norm_num]
        exact ⟨by rw [heq], fun _ => heq⟩
      · -- len - 32*wi = 16 exactly: chunk low, junk high
        have hlen16 : nuc.length = 32 * wi + 16 := by omega
        have hc1 : 2 * wi < nuc.length / 16 := by omega
        have hs1 : sseSlotVal junk nuc (2 * wi)
            = packRaw ((nuc.drop (16 * (2 * wi))).take 16) := by
          unfold sseSlotVal
          rw [if_pos hc1]
        have hs2 : sseSlotVal junk nuc (2 * wi + 1) = junk (2 * wi + 1) := by
          unfold sseSlotVal
          rw [if_neg (by omega), if_neg (by omega)]
      
        have ht16 : (nuc.drop (32 * wi)).take 16 = nuc.drop (32 * wi) :=
          List.take_of_length_le (by rw [List.length_drop]; omega)
        have ht32 : (nuc.drop (32 * wi)).take 32 = nuc.drop (32 * wi) :=
          List.take_of_length_le (by rw [List.length_drop]; omega)
        constructor
        · rw [hs1, hs2, show 16 * (2 * wi) = 32 * wi by ring, Nat.add_mul_mod_self_left,
            packRaw_eq_packAdd _ (hmemdt _ _), ht16, ht32]
        · intro hge
          omega

theorem getD_map_range (n i : Nat) (f : Nat → Nat) (hi : i < n) :
    ((List.range n).map f).getD i 0 = f i := by
  rw [List.getD_eq_getElem?_getD, List.getElem?_map, List.getElem?_range hi]
  rfl

/-- C2 counterexample: on the alphabet input of 16 `A`s the SSE tier's only
output word keeps uninitialized memory in its high 32 bits (here modelled
as 1) and differs from the scalar tier's output. -/
theorem C2_counterexample :
    (∀ b ∈ List.replicate 16 65, b ∈ ALPHABET) ∧
    encode_movemask_sse (fun _ => 1) (List.replicate 16 65)
      ≠ encode_lut (List.replicate 16 65) := by decide

/-- C2 (amended).  On every alphabet input the AVX2 encode tier equals the
scalar tier exactly; the SSE tier has the same number of words, agrees
exactly on every word but possibly the last, agrees everywhere modulo 2^32
(all bits covering actual bases), and is exactly equal whenever
`len % 32 = 0` or `len % 32 ≥ 17`; when `1 ≤ len % 32 ≤ 16` the final
word's high 32 bits are uninitialized memory. -/
theorem C2_tier_agreement (nuc : List Nat) (h : ∀ b ∈ nuc, b ∈ ALPHABET)
    (junk : Nat → Nat) :
    encode_movemask_avx nuc = encode_lut nuc ∧
    ∃ w s, encode_movemask_sse junk nuc = some w ∧ encode_lut nuc = some s ∧
      w.length = s.length ∧
      (∀ i, i + 1 < w.length → w.getD i 0 = s.getD i 0) ∧
      (∀ i, i < w.length → w.getD i 0 % 2 ^ 32 = s.getD i 0 % 2 ^ 32) ∧
      (nuc.length % 32 = 0 ∨ 17 ≤ nuc.length % 32 → w = s) := by
  have h128 : ∀ b ∈ nuc, b < 128 := fun b hb => alphabet_lt_128 b (h b hb)
  refine ⟨encode_movemask_avx_eq nuc h, _, _,
    encode_movemask_sse_words junk nuc h128, encode_lut_eq nuc h128, ?_, ?_, ?_, ?_⟩
  · simp [encWords]
  · intro i hi
    have hlen : i + 1 < numWords nuc.length := by simpa using hi
    have hfull : 32 * i + 17 ≤ nuc.length := by
      unfold numWords at hlen
      split at hlen <;> omega
    rw [getD_map_range _ _ _ (by omega), encWords_getD nuc i (by omega)]
    exact (sse_word_agrees junk nuc h i (by omega)).2 hfull
  · intro i hi
    have hlen : i < numWords nuc.length := by simpa using hi
    rw [getD_map_range _ _ _ hlen, encWords_getD nuc i hlen]
    exact (sse_word_agrees junk nuc h i hlen).1
  · intro hcond
    unfold encWords
    apply List.map_congr_left
    intro i hi
    have hlen : i < numWords nuc.length := by simpa using hi
    have hfull : 32 * i + 17 ≤ nuc.length := by
      unfold numWords at hlen
      rcases hcond with h0 | h17
      · split at hlen <;> omega
      · split at hlen <;> omega
    exact (sse_word_agrees junk nuc h i hlen).2 hfull

/-- Witness for the amended C2 at the concrete input "ACGT" with
uninitialized memory modelled as the constant 5. -/
theorem C2_tier_agreement_witness :
    encode_movemask_avx [65, 67, 71, 84] = encode_lut [65, 67, 71, 84] ∧
    ∃ w s, encode_movemask_sse (fun _ => 5) [65, 67, 71, 84] = some w ∧
      encode_lut [65, 67, 71, 84] = some s ∧
      w.length = s.length ∧
      (∀ i, i + 1 < w.length → w.getD i 0 = s.getD i 0) ∧
      (∀ i, i < w.length → w.getD i 0 % 2 ^ 32 = s.getD i 0 % 2 ^ 32) ∧
      (([65, 67, 71, 84] : List Nat).length % 32 = 0 ∨
        17 ≤ ([65, 67, 71, 84] : List Nat).length % 32 → w = s) :=
  C2_tier_agreement [65, 67, 71, 84] (by decide) (fun _ => 5)

/-- C5: on an SSE2-only host, encoding the single-base window "A" (k = 1)
leaves the high 32 bits of the one packed word as uninitialized memory
(here 1), so bits beyond `2k` are not zero; the scalar and AVX2 tiers do
zero-fill them. -/
theorem C5_sse_high_bits_garbage :
    encode_movemask_sse (fun _ => 1) [65] = some [4294967296] ∧
    (4294967296 : Nat) >>> (2 * 1) ≠ 0 ∧
    encode_movemask_avx [65] = some [0] ∧
    encode_lut [65] = some [0] := by decide

/-! ## Equivalence of the shuffle decode tiers with the scalar decoder -/

theorem decQuad0 : ∀ b, b < 256 → (if 128 ≤ b &&& 3 then 0
    else (([65, 67, 84, 71, 67, 0, 0, 0, 84, 0, 0, 0, 71, 0, 0, 0] :
      List Nat)[(b &&& 3) % 16]?).getD 0) = (BITS_LUT[b % 4]?).getD 0 := by decide

theorem decQuad1 : ∀ b, b < 256 → (if 128 ≤ b &&& 12 then 0
    else (([65, 67, 84, 71, 67, 0, 0, 0, 84, 0, 0, 0, 71, 0, 0, 0] :
      List Nat)[(b &&& 12) % 16]?).getD 0) = (BITS_LUT[b / 4 % 4]?).getD 0 := by decide

theorem decQuad2 : ∀ b, b < 256 → (if 128 ≤ (b + 256 * b) >>> 4 % 256 &&& 3 then 0
    else (([65, 67, 84, 71, 67, 0, 0, 0, 84, 0, 0, 0, 71, 0, 0, 0] :
      List Nat)[((b + 256 * b) >>> 4 % 256 &&& 3) % 16]?).getD 0)
    = (BITS_LUT[b / 16 % 4]?).getD 0 := by decide

theorem decQuad3 : ∀ b, b < 256 → (if 128 ≤ (b + 256 * b) >>> 4 / 256 % 256 &&& 12 then 0
    else (([65, 67, 84, 71, 67, 0, 0, 0, 84, 0, 0, 0, 71, 0, 0, 0] :
      List Nat)[((b + 256 * b) >>> 4 / 256 % 256 &&& 12) % 16]?).getD 0)
    = (BITS_LUT[b / 64 % 4]?).getD 0 := by decide

/-- The SSE decode pipeline on one 32-bit value, byte by byte. -/
theorem sseDecBlock_expand (x : Nat) :
    sseDecBlock x = (List.range 16).map fun i =>
      BITS_LUT.getD (x / 256 ^ (i / 4) % 256 / 2 ^ (2 * (i % 4)) % 4) 0 := by
  have hmask : sseShuffleMask = [0,0,0,0,1,1,1,1,2,2,2,2,3,3,3,3] := by decide
  have hlom : sseLoMask = [3,12,3,12,3,12,3,12,3,12,3,12,3,12,3,12] := by decide
  have hlut : sseLut = [65,67,84,71,67,0,0,0,84,0,0,0,71,0,0,0] := by decide
  have hr8 : List.range 8 = [0,1,2,3,4,5,6,7] := by decide
  have hr16 : List.range 16 = [0,1,2,3,4,5,6,7,8,9,10,11,12,13,14,15] := by decide
  have hlb4 : ∀ y : Nat, leBytes y 4 = [y % 256, y / 256 % 256, y / 256 / 256 % 256,
    y / 256 / 256 / 256 % 256] := fun y => rfl
  have hlb2 : ∀ y : Nat, leBytes y 2 = [y % 256, y / 256 % 256] := fun y => rfl
  unfold sseDecBlock set1_epi32x4
  rw [hmask, hlom, hlut, hr16]
  show shuffle_epi8 _ _ = _
  unfold shuffle_epi8 srli16 blend16 andv
  simp only [hlb4, hlb2, List.map_cons, List.map_nil, List.cons_append, List.nil_append,
    List.length_cons, List.length_nil, List.getD_cons_zero, List.getD_cons_succ,
    List.flatten, List.zipWith]
  norm_num [hr8]
  have hd2 : x / 256 / 256 = x / 65536 := by omega
  rw [hd2]
  have hd3 : x / 65536 / 256 = x / 16777216 := by omega
  rw [hd3]
  have hm : ∀ y : Nat, y % 256 % 4 = y % 4 := fun y => Nat.mod_mod_of_dvd y (by norm_num)
  rw [← hm x, ← hm (x / 256), ← hm (x / 65536), ← hm (x / 16777216)]
  exact ⟨decQuad0 _ (by omega), decQuad1 _ (by omega), decQuad2 _ (by omega),
    decQuad3 _ (by omega), decQuad0 _ (by omega), decQuad1 _ (by omega),
    decQuad2 _ (by omega), decQuad3 _ (by omega), decQuad0 _ (by omega),
    decQuad1 _ (by omega), decQuad2 _ (by omega), decQuad3 _ (by omega),
    decQuad0 _ (by omega), decQuad1 _ (by omega), decQuad2 _ (by omega),
    decQuad3 _ (by omega)⟩

/-- The AVX decode pipeline on one 64-bit word, byte by byte. -/
theorem avxDecBlock_expand (x : Nat) :
    avxDecBlock x = (List.range 32).map fun i =>
      BITS_LUT.getD (x / 256 ^ (i / 4) % 256 / 2 ^ (2 * (i % 4)) % 4) 0 := by
  have hmask : avxShuffleMask
      = [0,0,0,0,1,1,1,1,2,2,2,2,3,3,0x3,3,4,4,4,4,5,5,5,5,6,6,6,6,7,7,7,7] := by decide
  have hlom : avxLoMask
      = [3,12,3,12,3,12,3,12,3,12,3,12,3,12,3,12,
         3,12,3,12,3,12,3,12,3,12,3,12,3,12,3,12] := by decide
  have hlut : avxLut = [65,67,84,71,67,0,0,0,84,0,0,0,71,0,0,0,
    65,67,84,71,67,0,0,0,84,0,0,0,71,0,0,0] := by decide
  have hr16 : List.range 16 = [0,1,2,3,4,5,6,7,8,9,10,11,12,13,14,15] := by decide
  have hr32 : List.range 32 = [0,1,2,3,4,5,6,7,8,9,10,11,12,13,14,15,16,17,18,19,
    20,21,22,23,24,25,26,27,28,29,30,31] := by decide
  have hlb8 : ∀ y : Nat, leBytes y 8 = [y % 256, y / 256 % 256, y / 256 / 256 % 256,
    y / 256 / 256 / 256 % 256, y / 256 / 256 / 256 / 256 % 256,
    y / 256 / 256 / 256 / 256 / 256 % 256, y / 256 / 256 / 256 / 256 / 256 / 256 % 256,
    y / 256 / 256 / 256 / 256 / 256 / 256 / 256 % 256] := fun y => rfl
  have hlb2 : ∀ y : Nat, leBytes y 2 = [y % 256, y / 256 % 256] := fun y => rfl
  unfold avxDecBlock set1_epi64x4
  rw [hmask, hlom, hlut, hr32]
  show shuffle_epi8x2 _ _ = _
  unfold shuffle_epi8x2 shuffle_epi8 srli16 blend16 andv
  simp only [hlb8, hlb2, List.map_cons, List.map_nil, List.cons_append, List.nil_append,
    List.length_cons, List.length_nil, List.getD_cons_zero, List.getD_cons_succ,
    List.flatten, List.zipWith, List.take_succ_cons, List.take_zero, List.drop_succ_cons,
    List.drop_zero]
  norm_num [hr16]
  have hd2 : x / 256 / 256 = x / 65536 := by omega
  rw [hd2]
  have hd3 : x / 65536 / 256 = x / 16777216 := by omega
  rw [hd3]
  have hd4 : x / 16777216 / 256 = x / 4294967296 := by omega
  rw [hd4]
  have hd5 : x / 4294967296 / 256 = x / 1099511627776 := by omega
  rw [hd5]
  have hd6 : x / 1099511627776 / 256 = x / 281474976710656 := by omega
  rw [hd6]
  have hd7 : x / 281474976710656 / 256 = x / 72057594037927936 := by omega
  rw [hd7]
  have hm : ∀ y : Nat, y % 256 % 4 = y % 4 := fun y => Nat.mod_mod_of_dvd y (by norm_num)
  rw [← hm x, ← hm (x / 256), ← hm (x / 65536), ← hm (x / 16777216),
    ← hm (x / 4294967296), ← hm (x / 1099511627776), ← hm (x / 281474976710656),
    ← hm (x / 72057594037927936)]
  exact ⟨decQuad0 _ (by omega), decQuad1 _ (by omega), decQuad2 _ (by omega),
    decQuad3 _ (by omega), decQuad0 _ (by omega), decQuad1 _ (by omega),
    decQuad2 _ (by omega), decQuad3 _ (by omega), decQuad0 _ (by omega),
    decQuad1 _ (by omega), decQuad2 _ (by omega), decQuad3 _ (by omega),
    decQuad0 _ (by omega), decQuad1 _ (by omega), decQuad2 _ (by omega),
    decQuad3 _ (by omega), decQuad0 _ (by omega), decQuad1 _ (by omega),
    decQuad2 _ (by omega), decQuad3 _ (by omega), decQuad0 _ (by omega),
    decQuad1 _ (by omega), decQuad2 _ (by omega), decQuad3 _ (by omega),
    decQuad0 _ (by omega), decQuad1 _ (by omega), decQuad2 _ (by omega),
    decQuad3 _ (by omega), decQuad0 _ (by omega), decQuad1 _ (by omega),
    decQuad2 _ (by omega), decQuad3 _ (by omega)⟩

/-- The byte-pair field `m` of byte `q` of a word is its 2-bit field
`4*q + m`. -/
theorem byteField_eq (x i : Nat) (hi : i < 32) :
    x / 256 ^ (i / 4) % 256 / 2 ^ (2 * (i % 4)) % 4 = (x >>> (2 * i)) % 4 := by
  rw [Nat.shiftRight_eq_div_pow]
  have h256 : (256 : Nat) ^ (i / 4) = 2 ^ (8 * (i / 4)) := by
    rw [show (256 : Nat) = 2 ^ 8 from by norm_num, ← pow_mul]
  have hsplit : (256 : Nat) = 2 ^ (2 * (i % 4)) * 2 ^ (8 - 2 * (i % 4)) := by
    rw [← pow_add, show 2 * (i % 4) + (8 - 2 * (i % 4)) = 8 by omega]
    norm_num
  rw [h256, hsplit, Nat.mod_mul_right_div_self,
    Nat.mod_mod_of_dvd _ (show (4 : Nat) ∣ 2 ^ (8 - 2 * (i % 4)) from by
      rw [show (4 : Nat) = 2 ^ 2 from rfl]
      exact pow_dvd_pow 2 (by omega)),
    Nat.div_div_eq_div_mul, ← pow_add,
    show 8 * (i / 4) + 2 * (i % 4) = 2 * i by omega]

/-- Bits `2*i` of the low 32-bit half agree with the word, for `i < 16`. -/
theorem half_lo_field (w i : Nat) (hi : i < 16) :
    ((w % 2 ^ 32) >>> (2 * i)) % 4 = (w >>> (2 * i)) % 4 := by
  rw [Nat.shiftRight_eq_div_pow, Nat.shiftRight_eq_div_pow]
  rw [show (2 : Nat) ^ 32 = 2 ^ (2 * i) * 2 ^ (32 - 2 * i) from by
    rw [← pow_add, show 2 * i + (32 - 2 * i) = 32 by omega]]
  rw [Nat.mod_mul_right_div_self,
    Nat.mod_mod_of_dvd _ (show (4 : Nat) ∣ 2 ^ (32 - 2 * i) from by
      rw [show (4 : Nat) = 2 ^ 2 from rfl]
      exact pow_dvd_pow 2 (by omega))]

/-- Bits `2*i` of the high 32-bit half are bits `32 + 2*i` of the word. -/
theorem half_hi_field (w i : Nat) (hi : i < 16) :
    ((w / 2 ^ 32 % 2 ^ 32) >>> (2 * i)) % 4 = (w >>> (32 + 2 * i)) % 4 := by
  have h1 := half_lo_field (w / 2 ^ 32) i hi
  rw [h1, Nat.shiftRight_eq_div_pow, Nat.shiftRight_eq_div_pow,
    Nat.div_div_eq_div_mul, ← pow_add]

/-- One AVX block decodes word `w` exactly as the scalar per-byte formula. -/
theorem avxDecBlock_bytes (w : Nat) :
    avxDecBlock w = (List.range 32).map fun i =>
      BITS_LUT.getD ((w >>> (2 * i)) % 4) 0 := by
  rw [avxDecBlock_expand]
  apply List.map_congr_left
  intro i hi
  rw [byteField_eq w i (by simpa using hi)]

/-- The two SSE blocks of a word decode it exactly as one AVX block. -/
theorem sseDecBlocks_bytes (w : Nat) :
    sseDecBlock (w % 2 ^ 32) ++ sseDecBlock (w / 2 ^ 32 % 2 ^ 32)
      = (List.range 32).map fun i => BITS_LUT.getD ((w >>> (2 * i)) % 4) 0 := by
  rw [sseDecBlock_expand, sseDecBlock_expand,
    show List.range 32 = List.range (16 + 16) from rfl, List.range_add, List.map_append]
  have hlo : (List.range 16).map (fun i =>
        BITS_LUT.getD (w % 2 ^ 32 / 256 ^ (i / 4) % 256 / 2 ^ (2 * (i % 4)) % 4) 0)
      = (List.range 16).map fun i => BITS_LUT.getD ((w >>> (2 * i)) % 4) 0 := by
    apply List.map_congr_left
    intro i hi
    have hi16 : i < 16 := by simpa using hi
    rw [byteField_eq _ i (by omega), half_lo_field w i hi16]
  have hhi : (List.range 16).map (fun i =>
        BITS_LUT.getD (w / 2 ^ 32 % 2 ^ 32 / 256 ^ (i / 4) % 256 / 2 ^ (2 * (i % 4)) % 4) 0)
      = ((List.range 16).map fun x => 16 + x).map fun i =>
          BITS_LUT.getD ((w >>> (2 * i)) % 4) 0 := by
    rw [List.map_map]
    apply List.map_congr_left
    intro i hi
    have hi16 : i < 16 := by simpa using hi
    show BITS_LUT.getD (w / 2 ^ 32 % 2 ^ 32 / 256 ^ (i / 4) % 256 / 2 ^ (2 * (i % 4)) % 4) 0
      = BITS_LUT.getD ((w >>> (2 * (16 + i))) % 4) 0
    rw [byteField_eq _ i (by omega), half_hi_field w i hi16,
      show 32 + 2 * i = 2 * (16 + i) by ring]
  rw [hlo, hhi]

/-- The scalar per-position byte in terms of the word list. -/
theorem decByte_block (bits : List Nat) (w : Nat) (j : Nat) (hj : j < 32) :
    decByte (w :: bits) j = BITS_LUT.getD ((w >>> (2 * j)) % 4) 0 := by
  unfold decByte
  rw [Nat.div_eq_of_lt hj, Nat.mod_eq_of_lt hj, List.getD_cons_zero]

theorem decByte_shift (bits : List Nat) (w : Nat) (j : Nat) :
    decByte (w :: bits) (32 + j) = decByte bits j := by
  unfold decByte
  rw [show (32 + j) / 32 = j / 32 + 1 by omega, show (32 + j) % 32 = j % 32 by omega,
    List.getD_cons_succ]

/-- Concatenated AVX blocks give the scalar byte at every position. -/
theorem avx_flatten_eq (bits : List Nat) :
    (bits.map avxDecBlock).flatten
      = (List.range (32 * bits.length)).map (decByte bits) := by
  induction bits with
  | nil => rfl
  | cons w rest ih =>
    show avxDecBlock w ++ (rest.map avxDecBlock).flatten = _
    have h1 : (List.range 32).map (decByte (w :: rest))
        = (List.range 32).map fun i => BITS_LUT.getD ((w >>> (2 * i)) % 4) 0 :=
      List.map_congr_left fun j hj => decByte_block rest w j (by simpa using hj)
    have h2 : ((List.range (32 * rest.length)).map fun x => 32 + x).map (decByte (w :: rest))
        = (List.range (32 * rest.length)).map (decByte rest) := by
      rw [List.map_map]
      exact List.map_congr_left fun j hj => decByte_shift rest w j
    rw [ih, avxDecBlock_bytes, List.length_cons,
      show 32 * (rest.length + 1) = 32 + 32 * rest.length by ring, List.range_add,
      List.map_append, h1, h2]

/-- Concatenated SSE blocks over the i32 views give the scalar byte at
every position. -/
theorem sse_flatten_eq (bits : List Nat) :
    ((halves bits).map sseDecBlock).flatten
      = (List.range (32 * bits.length)).map (decByte bits) := by
  induction bits with
  | nil => rfl
  | cons w rest ih =>
    show sseDecBlock (w % 2 ^ 32) ++ (sseDecBlock (w / 2 ^ 32 % 2 ^ 32)
        ++ ((halves rest).map sseDecBlock).flatten) = _
    have h1 : (List.range 32).map (decByte (w :: rest))
        = (List.range 32).map fun i => BITS_LUT.getD ((w >>> (2 * i)) % 4) 0 :=
      List.map_congr_left fun j hj => decByte_block rest w j (by simpa using hj)
    have h2 : ((List.range (32 * rest.length)).map fun x => 32 + x).map (decByte (w :: rest))
        = (List.range (32 * rest.length)).map (decByte rest) := by
      rw [List.map_map]
      exact List.map_congr_left fun j hj => decByte_shift rest w j
    rw [← List.append_assoc, sseDecBlocks_bytes, ih, List.length_cons,
      show 32 * (rest.length + 1) = 32 + 32 * rest.length by ring, List.range_add,
      List.map_append, h1, h2]

/-- C3.  For every packed word sequence and every requested length within
capacity, the AVX2 and the SSE4.1 decode tiers both produce exactly the
scalar tier's output. -/
theorem C3_decode_tiers (bits : List Nat) (len : Nat) (h : len ≤ 32 * bits.length) :
    decode_lut bits len = some (decode_shuffle_avx bits len) ∧
    decode_lut bits len = some (decode_shuffle_sse bits len) := by
  have hscal := decode_lut_eq bits len (by omega)
  have htake : ∀ l : List Nat, l = (List.range (32 * bits.length)).map (decByte bits) →
      l.take len = (List.range len).map (decByte bits) := by
    intro l hl
    rw [hl, ← List.map_take, List.take_range, Nat.min_eq_left h]
  constructor
  · unfold decode_shuffle_avx
    rw [htake _ (avx_flatten_eq bits), hscal]
  · unfold decode_shuffle_sse
    rw [htake _ (sse_flatten_eq bits), hscal]

/-- Witness for C3 at a concrete two-word buffer and length 40. -/
theorem C3_decode_tiers_witness :
    decode_lut [12345678901234567, 18446744073709551615] 40
        = some (decode_shuffle_avx [12345678901234567, 18446744073709551615] 40) ∧
    decode_lut [12345678901234567, 18446744073709551615] 40
        = some (decode_shuffle_sse [12345678901234567, 18446744073709551615] 40) :=
  C3_decode_tiers [12345678901234567, 18446744073709551615] 40 (by norm_num)


/-- C7.  The matcher yields exactly the keys present in both the target
index and the query index, each paired with both sides' per-key info; and
for target "ACGTACGT", query "ACGTTTTT", k = 4, the shared-key list has
exactly one entry, whose key 180 is the key of "ACGT", with target
positions 0 and 4 and query position 0. -/
theorem C7_matcher (tgt qry : List (Nat × KmerInfo)) (h : Nat) (ti qi : KmerInfo) :
    ((h, ti, qi) ∈ matcher tgt qry ↔ (h, qi) ∈ qry ∧ tgt.lookup h = some ti) ∧
    ((buildTarget "t" [65, 67, 71, 84, 65, 67, 71, 84] 4).bind fun tm =>
        (buildQuery tm "q" [65, 67, 71, 84, 84, 84, 84, 84] 4).map fun qm =>
          matcher tm qm)
      = some [(180, ⟨[("t", 0), ("t", 4)]⟩, ⟨[("q", 0)]⟩)] ∧
    hKey [65, 67, 71, 84] = some 180 := by
  refine ⟨?_, rfl, rfl⟩
  simp only [matcher, List.mem_filterMap, Option.map_eq_some']
  constructor
  · rintro ⟨⟨h1, q1⟩, hmem, t1, hlook, heq⟩
    rw [Prod.mk.injEq, Prod.mk.injEq] at heq
    obtain ⟨rfl, rfl, rfl⟩ := heq
    exact ⟨hmem, hlook⟩
  · rintro ⟨hmem, hlook⟩
    exact ⟨(h, qi), hmem, ti, hlook, rfl⟩

end Skc
